import Mathlib

/-!
# Verification of the Minesweeper AI knowledge engine

This file gives a shallow embedding, in Lean 4, of the core of
`minesweeper.py`: the `Sentence` representation (a set of board cells plus a
mine count) and the `MinesweeperAI` knowledge engine with its
`add_knowledge` closure loop, together with the read-only queries
`make_safe_move` and `make_random_move`.

Modelling conventions:
* A board cell is a pair of integers `(row, col)`; Python tuples of ints.
* Python `set` objects become `Finset Cell`; Python structural equality of
  `Sentence` (equal cell sets and equal counts) becomes structural equality
  of the Lean `Sentence` structure (`Finset` equality is set equality).
* Python ints are `Int` (counts can go negative in the source).
* Where Python iterates over a `set` in unspecified hash order and the
  iterated operations commute, the model applies the net effect of the
  whole iteration at once: a broadcast loop over a snapshot set becomes a
  single set-level update (`broadcastMines`/`broadcastSafes`), and the
  loops of `make_safe_move`/`make_random_move` become a minimum-choice
  over the candidate set.  The lemmas `foldl_mark_mine_eq` and
  `foldl_mark_safe_eq` prove the set-level update equal to folding the
  per-cell broadcast over any enumeration of the snapshot, duplicates
  allowed, so this is the value the Python loop computes whatever order
  the hash iteration takes.
* The `while made_inference` loop of `add_knowledge` is modelled with an
  explicit amount of fuel (`runClosure`); `runClosure` returns `none`
  exactly when the Python loop has not finished within `fuel` passes, so
  `∃ fuel, runClosure fuel s = some s'` says the loop terminates with
  result `s'` (the result is monotone in fuel).
* `Sentence` in the source also carries write-only bookkeeping sets
  `self.mines` / `self.safe` that no code ever reads; they are omitted.
* The board-generator class (`Minesweeper`) is outside the knowledge core
  and is not modelled; a ground-truth mine placement is represented, where
  needed, by a `Finset Cell`.
-/

/-- A board cell `(row, col)`, as in the source a pair of integers. -/
abbrev Cell : Type := Int × Int

/-- Lexicographic comparison of cells (used only to make the choice in
`make_safe_move`/`make_random_move` deterministic). -/
def cellLe (a b : Cell) : Prop :=
  a.1 < b.1 ∨ (a.1 = b.1 ∧ a.2 ≤ b.2)

instance : DecidableRel cellLe := fun a b =>
  inferInstanceAs (Decidable (a.1 < b.1 ∨ (a.1 = b.1 ∧ a.2 ≤ b.2)))

/-- The lexicographically smaller of two cells. -/
def cellMin (a b : Cell) : Cell :=
  if cellLe a b then a else b

/-- `cellMin` lifted to `Option Cell` (`none` is the identity). -/
def optCellMin : Option Cell → Option Cell → Option Cell
  | none, b => b
  | some a, none => some a
  | some a, some b => some (cellMin a b)

instance instCommCellMin : Std.Commutative cellMin := by
  constructor
  rintro ⟨a1, a2⟩ ⟨b1, b2⟩
  unfold cellMin cellLe
  split_ifs <;> simp only [Prod.mk.injEq] <;> omega

instance instAssocCellMin : Std.Associative cellMin := by
  constructor
  rintro ⟨a1, a2⟩ ⟨b1, b2⟩ ⟨c1, c2⟩
  unfold cellMin cellLe
  split_ifs <;> simp only [Prod.mk.injEq] <;> omega

instance : Std.Commutative optCellMin := by
  constructor
  rintro (_ | a) (_ | b) <;> simp only [optCellMin]
  rw [instCommCellMin.comm]

instance : Std.Associative optCellMin := by
  constructor
  rintro (_ | a) (_ | b) (_ | c) <;> simp only [optCellMin]
  rw [instAssocCellMin.assoc]

/-- The least cell of a finite set (`none` for the empty set).  Python
returns an unspecified member where we return the least one. -/
def minCell (X : Finset Cell) : Option Cell :=
  X.fold optCellMin none (fun c => some c)

/-- `class Sentence`: a logical statement about the game, "exactly `count`
of `cells` are mines".  Structural equality coincides with the source's
`__eq__` (same cell set, same count). -/
structure Sentence where
  cells : Finset Cell
  count : Int
deriving DecidableEq

/-- `Sentence.known_mines`: the set of cells known to be mines — the whole
cell set when `count == len(cells) and count != 0`, else empty. -/
def Sentence.known_mines (s : Sentence) : Finset Cell :=
  if s.count = (s.cells.card : Int) ∧ s.count ≠ 0 then s.cells else ∅

/-- `Sentence.known_safes`: the set of cells known to be safe — the whole
cell set when `count == 0`, else empty. -/
def Sentence.known_safes (s : Sentence) : Finset Cell :=
  if s.count = 0 then s.cells else ∅

/-- `Sentence.mark_mine`: if the cell is in the sentence, remove it and
decrement the count; otherwise do nothing. -/
def Sentence.mark_mine (s : Sentence) (cell : Cell) : Sentence :=
  if cell ∈ s.cells then ⟨s.cells.erase cell, s.count - 1⟩ else s

/-- `Sentence.mark_safe`: if the cell is in the sentence, remove it (count
unchanged); otherwise do nothing. -/
def Sentence.mark_safe (s : Sentence) (cell : Cell) : Sentence :=
  if cell ∈ s.cells then ⟨s.cells.erase cell, s.count⟩ else s

/-- `class MinesweeperAI`: the knowledge-engine state. -/
structure MinesweeperAI where
  height : Nat
  width : Nat
  moves_made : Finset Cell
  mines : Finset Cell
  safes : Finset Cell
  knowledge : List Sentence
deriving DecidableEq

/-- `MinesweeperAI.__init__`: fresh engine over an `height × width` grid. -/
def initAI (height width : Nat) : MinesweeperAI :=
  ⟨height, width, ∅, ∅, ∅, []⟩

/-- `MinesweeperAI.mark_mine`: add the cell to the confirmed-mine set and
broadcast `Sentence.mark_mine` to every held sentence. -/
def MinesweeperAI.mark_mine (s : MinesweeperAI) (cell : Cell) : MinesweeperAI :=
  { s with
    mines := insert cell s.mines
    knowledge := s.knowledge.map (fun t => t.mark_mine cell) }

/-- `MinesweeperAI.mark_safe`: add the cell to the confirmed-safe set and
broadcast `Sentence.mark_safe` to every held sentence. -/
def MinesweeperAI.mark_safe (s : MinesweeperAI) (cell : Cell) : MinesweeperAI :=
  { s with
    safes := insert cell s.safes
    knowledge := s.knowledge.map (fun t => t.mark_safe cell) }

/-- The 8 neighbour coordinates of a cell, in the row-major order of the
source's double loop (the cell itself is skipped by the `(i, j) == cell`
test). -/
def neighborCandidates (cell : Cell) : List Cell :=
  [(cell.1 - 1, cell.2 - 1), (cell.1 - 1, cell.2), (cell.1 - 1, cell.2 + 1),
   (cell.1, cell.2 - 1), (cell.1, cell.2 + 1),
   (cell.1 + 1, cell.2 - 1), (cell.1 + 1, cell.2), (cell.1 + 1, cell.2 + 1)]

/-- `i in range(self.height) and j in range(self.width)` for integer
coordinates. -/
def inBounds (height width : Nat) (p : Cell) : Prop :=
  0 ≤ p.1 ∧ p.1 < (height : Int) ∧ 0 ≤ p.2 ∧ p.2 < (width : Int)

instance (height width : Nat) (p : Cell) : Decidable (inBounds height width p) :=
  inferInstanceAs
    (Decidable (0 ≤ p.1 ∧ p.1 < (height : Int) ∧ 0 ≤ p.2 ∧ p.2 < (width : Int)))

/-- The undetermined in-bounds neighbours of `cell`: in bounds, not already
confirmed safe, not already confirmed a mine (source lines building
`neighbors`). -/
def undeterminedNeighbors (s : MinesweeperAI) (cell : Cell) : List Cell :=
  (neighborCandidates cell).filter
    (fun p => inBounds s.height s.width p ∧ p ∉ s.safes ∧ p ∉ s.mines)

/-- The number of in-bounds neighbours already confirmed as mines (each one
decrements the working count, source's `elif (i, j) in self.mines`). -/
def knownMineNeighborCount (s : MinesweeperAI) (cell : Cell) : Nat :=
  ((neighborCandidates cell).filter
    (fun p => inBounds s.height s.width p ∧ p ∈ s.mines)).length

/-- Steps 1–5 of `add_knowledge`, before the closure loop: record the move,
broadcast the observed cell as safe, compute undetermined neighbours and
the adjusted count, apply the two immediate marking rules, and append the
new sentence. -/
def add_knowledge_raw (s : MinesweeperAI) (cell : Cell) (count : Int) :
    MinesweeperAI :=
  let s1 := { s with moves_made := insert cell s.moves_made }
  let s2 := s1.mark_safe cell
  let neighbors := undeterminedNeighbors s2 cell
  let count' := count - (knownMineNeighborCount s2 cell : Int)
  let s3 := if count' = 0 then
      neighbors.foldl (fun st c => st.mark_safe c) s2
    else s2
  let s4 := if count' = (neighbors.length : Int) ∧ 0 < count' then
      neighbors.foldl (fun st c => st.mark_mine c) s3
    else s3
  { s4 with knowledge := s4.knowledge ++ [⟨neighbors.toFinset, count'⟩] }

/-- The net effect on a sentence of calling `mark_mine` once for each cell
of the snapshot `X`: the cells of `X` leave the sentence, and the count
drops by one for each that was present. -/
def Sentence.resolve_mines (t : Sentence) (X : Finset Cell) : Sentence :=
  ⟨t.cells \ X, t.count - ((t.cells ∩ X).card : Int)⟩

/-- The net effect on a sentence of calling `mark_safe` once for each cell
of the snapshot `X`: the cells of `X` leave the sentence, count
unchanged. -/
def Sentence.resolve_safes (t : Sentence) (X : Finset Cell) : Sentence :=
  ⟨t.cells \ X, t.count⟩

/-- Broadcasting a whole snapshot of newly known mines: the source's
`for cell in sentence.known_mines().copy(): self.mark_mine(cell)` loop
(see `foldl_mark_mine_eq` for the equality with the per-cell fold). -/
def broadcastMines (s : MinesweeperAI) (X : Finset Cell) : MinesweeperAI :=
  { s with
    mines := s.mines ∪ X
    knowledge := s.knowledge.map (fun t => t.resolve_mines X) }

/-- Broadcasting a whole snapshot of newly known safes: the source's
`for cell in sentence.known_safes().copy(): self.mark_safe(cell)` loop
(see `foldl_mark_safe_eq`). -/
def broadcastSafes (s : MinesweeperAI) (X : Finset Cell) : MinesweeperAI :=
  { s with
    safes := s.safes ∪ X
    knowledge := s.knowledge.map (fun t => t.resolve_safes X) }

/-- One step of the broadcast phase (step (a) of a closure pass): process
the sentence at index `i` of the knowledge list, broadcasting its
`known_mines` and then (re-reading the sentence, which the broadcasts
mutate) its `known_safes`.  Folding over an empty enumeration is the
identity, which models the source's `if sentence.known_mines():`
non-emptiness guards. -/
def broadcastOne (s : MinesweeperAI) (i : Nat) : MinesweeperAI :=
  match s.knowledge[i]? with
  | none => s
  | some t =>
      let s1 := broadcastMines s t.known_mines
      match s1.knowledge[i]? with
      | none => s1
      | some t2 => broadcastSafes s1 t2.known_safes

/-- The broadcast phase of one closure pass: scan the knowledge list by
index (the list's length never changes during the scan; its members mutate
under the broadcasts). -/
def broadcastPhase (s : MinesweeperAI) : MinesweeperAI :=
  (List.range s.knowledge.length).foldl broadcastOne s

/-- The candidate sentence the subset rule derives from the ordered pair
`(s1, s2)` when `s1.cells ⊆ s2.cells`. -/
def inferred (s1 s2 : Sentence) : Sentence :=
  ⟨s2.cells \ s1.cells, s2.count - s1.count⟩

/-- One step of the subset-resolution scan: given the full knowledge list
`know`, the outer sentence `s1`, the queue `acc` built so far and the
inner sentence `s2`, queue the difference sentence unless it is already
held or already queued. -/
def inferStep (know : List Sentence) (s1 : Sentence) (acc : List Sentence)
    (s2 : Sentence) : List Sentence :=
  if s1 ≠ s2 ∧ s1.cells ⊆ s2.cells then
    if inferred s1 s2 ∉ know ∧ inferred s1 s2 ∉ acc then
      acc ++ [inferred s1 s2]
    else acc
  else acc

/-- The subset-resolution phase of one closure pass: for every ordered pair
of distinct held sentences with `sentence1.cells ⊆ sentence2.cells`, queue
the difference sentence unless it is already held or already queued. -/
def inferNew (l : List Sentence) : List Sentence :=
  l.foldl (fun acc s1 => l.foldl (inferStep l s1) acc) []

/-- One full pass of the closure loop: broadcast phase, then
subset-resolution, then extend the knowledge list; the Boolean is the
source's `made_inference` flag, set exactly when a new sentence was
queued. -/
def closurePass (s : MinesweeperAI) : MinesweeperAI × Bool :=
  let s1 := broadcastPhase s
  let ns := inferNew s1.knowledge
  ({ s1 with knowledge := s1.knowledge ++ ns }, !ns.isEmpty)

/-- The `while made_inference:` loop, with fuel: run passes until one makes
no inference; `none` when `fuel` passes did not reach that point. -/
def runClosure : Nat → MinesweeperAI → Option MinesweeperAI
  | 0, _ => none
  | fuel + 1, s =>
      match closurePass s with
      | (t, true) => runClosure fuel t
      | (t, false) => some t

/-- `MinesweeperAI.add_knowledge`, with fuel for its closure loop. -/
def add_knowledge (fuel : Nat) (s : MinesweeperAI) (cell : Cell)
    (count : Int) : Option MinesweeperAI :=
  runClosure fuel (add_knowledge_raw s cell count)

/-- Run a whole observation sequence (each observation paired with fuel for
its closure loop); `none` when some call's closure loop did not finish in
its fuel. -/
def runObs : MinesweeperAI → List (Cell × Int × Nat) → Option MinesweeperAI
  | s, [] => some s
  | s, (cell, count, fuel) :: rest =>
      match add_knowledge fuel s cell count with
      | none => none
      | some t => runObs t rest

/-- `MinesweeperAI.make_safe_move`: some confirmed-safe cell not yet
played, or `none`.  The source iterates `self.safes` in unspecified set
order and returns the first cell not yet played; we return the least
such cell. -/
def make_safe_move (s : MinesweeperAI) : Option Cell :=
  minCell (s.safes.filter (fun c => c ∉ s.moves_made))

/-- All grid cells, `itertools.product(range(height), range(width))`. -/
def gridCells (height width : Nat) : Finset Cell :=
  ((List.range height).flatMap
    (fun i => (List.range width).map (fun j => ((i : Int), (j : Int))))).toFinset

/-- The candidate set of `make_random_move`: all cells minus moves made
minus known mines. -/
def availableMoves (s : MinesweeperAI) : Finset Cell :=
  (gridCells s.height s.width \ s.moves_made) \ s.mines

/-- `MinesweeperAI.make_random_move`: `None` when no candidate remains,
otherwise some candidate (the source picks uniformly at random; we model
the selection deterministically as the least candidate — which candidate
is irrelevant to every claim). -/
def make_random_move (s : MinesweeperAI) : Option Cell :=
  minCell (availableMoves s)

/-! ## Sentence-level facts -/

lemma known_mines_eq (s : Sentence) :
    s.known_mines =
      if s.count = (s.cells.card : Int) ∧ s.count ≠ 0 then s.cells else ∅ := rfl

lemma known_safes_eq (s : Sentence) :
    s.known_safes = if s.count = 0 then s.cells else ∅ := rfl

/-- C8: membership characterisation of `known_mines`/`known_safes`: the
full cell set exactly under the stated side conditions, empty otherwise
(the degenerate sentence `(∅, 0)` yields the empty set for both). -/
theorem C8_known_mines_safes_spec (s : Sentence) :
    (∀ c, c ∈ s.known_mines ↔
      c ∈ s.cells ∧ s.count = (s.cells.card : Int) ∧ s.count ≠ 0) ∧
    (∀ c, c ∈ s.known_safes ↔ c ∈ s.cells ∧ s.count = 0) ∧
    (s.known_mines = s.cells ∨ s.known_mines = ∅) ∧
    (s.known_safes = s.cells ∨ s.known_safes = ∅) := by
  refine ⟨fun c => ?_, fun c => ?_, ?_, ?_⟩ <;>
    · simp only [Sentence.known_mines, Sentence.known_safes]
      split_ifs with h <;> simp_all <;>
        exact fun hc => Finset.ne_empty_of_mem hc

/-- Witness for C8 at a concrete sentence. -/
theorem C8_witness :
    ((0 : Int), (0 : Int)) ∈ (Sentence.mk {((0 : Int), (0 : Int))} 1).known_mines := by
  have h := (C8_known_mines_safes_spec (Sentence.mk {((0 : Int), (0 : Int))} 1)).1
    ((0 : Int), (0 : Int))
  exact h.mpr (by decide)

/-- A sentence is truthful for the mine placement `M`: its count is the
number of its cells that really are mines.  This is the sense in which a
cell can be "already proven" to be a mine (`c ∈ M`) or safe (`c ∉ M`). -/
def Sound (M : Finset Cell) (t : Sentence) : Prop :=
  t.count = ((t.cells.filter (fun c => c ∈ M)).card : Int)

instance (M : Finset Cell) (t : Sentence) : Decidable (Sound M t) :=
  inferInstanceAs (Decidable (t.count = ((t.cells.filter (fun c => c ∈ M)).card : Int)))

/-- A call to one of the two sentence mutators. -/
inductive ResolveOp where
  | mine (c : Cell)
  | safe (c : Cell)
deriving DecidableEq

/-- Apply a mutator call to a sentence. -/
def applyOp (t : Sentence) : ResolveOp → Sentence
  | .mine c => t.mark_mine c
  | .safe c => t.mark_safe c

/-- The mutator is invoked with a cell whose claimed status is its real
status under the placement `M`. -/
def validOp (M : Finset Cell) : ResolveOp → Prop
  | .mine c => c ∈ M
  | .safe c => c ∉ M

instance (M : Finset Cell) (op : ResolveOp) : Decidable (validOp M op) :=
  match op with
  | .mine c => inferInstanceAs (Decidable (c ∈ M))
  | .safe c => inferInstanceAs (Decidable (c ∉ M))

lemma Sound.bounds {M : Finset Cell} {t : Sentence} (h : Sound M t) :
    0 ≤ t.count ∧ t.count ≤ (t.cells.card : Int) := by
  rw [h]
  constructor
  · positivity
  · exact_mod_cast Finset.card_filter_le _ _

lemma Sound.mark_mine {M : Finset Cell} {t : Sentence} {c : Cell}
    (hc : c ∈ M) (h : Sound M t) : Sound M (t.mark_mine c) := by
  unfold Sentence.mark_mine
  split_ifs with hmem
  · unfold Sound at h ⊢
    simp only [h, Finset.filter_erase]
    have hcf : c ∈ t.cells.filter (fun x => x ∈ M) :=
      Finset.mem_filter.mpr ⟨hmem, hc⟩
    rw [Finset.card_erase_of_mem hcf]
    have hpos : 1 ≤ (t.cells.filter (fun x => x ∈ M)).card :=
      Finset.card_pos.mpr ⟨c, hcf⟩
    push_cast [Nat.cast_sub hpos]
    ring
  · exact h

lemma Sound.mark_safe {M : Finset Cell} {t : Sentence} {c : Cell}
    (hc : c ∉ M) (h : Sound M t) : Sound M (t.mark_safe c) := by
  unfold Sentence.mark_safe
  split_ifs with hmem
  · unfold Sound at h ⊢
    simp only [h, Finset.filter_erase]
    rw [Finset.erase_eq_of_not_mem (fun hcf => hc (Finset.mem_filter.mp hcf).2)]
  · exact h

/-- C7: after any sequence of `mark_mine`/`mark_safe` calls, each with a
cell whose real status (under placement `M`) matches the call, a truthful
sentence stays truthful and in particular keeps `0 ≤ count ≤ |cells|`. -/
theorem C7_resolve_bounds (M : Finset Cell) (ops : List ResolveOp)
    (t : Sentence) (hsound : Sound M t)
    (hvalid : ∀ op ∈ ops, validOp M op) :
    Sound M (ops.foldl applyOp t) ∧
    0 ≤ (ops.foldl applyOp t).count ∧
    (ops.foldl applyOp t).count ≤ ((ops.foldl applyOp t).cells.card : Int) := by
  suffices h : Sound M (ops.foldl applyOp t) from ⟨h, h.bounds⟩
  induction ops generalizing t with
  | nil => exact hsound
  | cons op rest ih =>
      simp only [List.foldl_cons]
      refine ih _ ?_ (fun o ho => hvalid o (List.mem_cons_of_mem _ ho))
      have hv := hvalid op (List.mem_cons_self op rest)
      cases op with
      | mine c => exact hsound.mark_mine hv
      | safe c => exact hsound.mark_safe hv

/-- Witness for C7 at a concrete placement, sentence and call sequence. -/
theorem C7_witness :
    Sound {((0 : Int), (0 : Int))}
      ([ResolveOp.mine ((0 : Int), (0 : Int)),
        ResolveOp.safe ((0 : Int), (1 : Int))].foldl applyOp
        (Sentence.mk {((0 : Int), (0 : Int)), ((0 : Int), (1 : Int))} 1)) ∧
    0 ≤ ([ResolveOp.mine ((0 : Int), (0 : Int)),
        ResolveOp.safe ((0 : Int), (1 : Int))].foldl applyOp
        (Sentence.mk {((0 : Int), (0 : Int)), ((0 : Int), (1 : Int))} 1)).count ∧
    ([ResolveOp.mine ((0 : Int), (0 : Int)),
        ResolveOp.safe ((0 : Int), (1 : Int))].foldl applyOp
        (Sentence.mk {((0 : Int), (0 : Int)), ((0 : Int), (1 : Int))} 1)).count ≤
      ((([ResolveOp.mine ((0 : Int), (0 : Int)),
        ResolveOp.safe ((0 : Int), (1 : Int))].foldl applyOp
        (Sentence.mk {((0 : Int), (0 : Int)), ((0 : Int), (1 : Int))} 1)).cells.card : Int)) :=
  C7_resolve_bounds _ _ _ (by decide) (by decide)

/-! ## The subset-resolution queue: fold lemmas -/

lemma inferStep_sub (know : List Sentence) (s1 acc : _) (s2 : Sentence) :
    acc ⊆ inferStep know s1 acc s2 := by
  unfold inferStep
  split_ifs <;> first
    | exact List.Subset.refl acc
    | exact List.subset_append_left acc _

lemma foldl_sub {α : Type} (g : List Sentence → α → List Sentence)
    (hg : ∀ acc y, acc ⊆ g acc y) :
    ∀ (l : List α) (acc : List Sentence), acc ⊆ l.foldl g acc := by
  intro l
  induction l with
  | nil => exact fun acc => List.Subset.refl acc
  | cons a tl ih =>
      intro acc
      exact List.Subset.trans (hg acc a) (ih (g acc a))

lemma inner_hit (know : List Sentence) (s1 s2 : Sentence)
    (hne : s1 ≠ s2) (hsub : s1.cells ⊆ s2.cells)
    (hnotin : inferred s1 s2 ∉ know) :
    ∀ (iter : List Sentence) (acc : List Sentence), s2 ∈ iter →
      inferred s1 s2 ∈ iter.foldl (inferStep know s1) acc := by
  intro iter
  induction iter with
  | nil => intro acc h; cases h
  | cons a tl ih =>
      intro acc hmem
      rcases List.mem_cons.mp hmem with rfl | hmem'
      · have hstep : inferred s1 s2 ∈ inferStep know s1 acc s2 := by
          unfold inferStep
          rw [if_pos ⟨hne, hsub⟩]
          split_ifs with h2
          · exact List.mem_append_right _ (List.mem_singleton_self _)
          · rcases not_and_or.mp h2 with h3 | h3
            · exact absurd hnotin h3
            · exact not_not.mp h3
        simp only [List.foldl_cons]
        exact foldl_sub _ (inferStep_sub know s1) tl _ hstep
      · simp only [List.foldl_cons]
        exact ih _ hmem'

lemma inferNew_hit {l : List Sentence} {s1 s2 : Sentence}
    (h1 : s1 ∈ l) (h2 : s2 ∈ l) (hne : s1 ≠ s2)
    (hsub : s1.cells ⊆ s2.cells) (hnotin : inferred s1 s2 ∉ l) :
    inferred s1 s2 ∈ inferNew l := by
  unfold inferNew
  have houter : ∀ (iter : List Sentence) (acc : List Sentence), s1 ∈ iter →
      inferred s1 s2 ∈ iter.foldl (fun acc t => l.foldl (inferStep l t) acc) acc := by
    intro iter
    induction iter with
    | nil => intro acc h; cases h
    | cons a tl ih =>
        intro acc hmem
        rcases List.mem_cons.mp hmem with rfl | hmem'
        · simp only [List.foldl_cons]
          have hin : inferred s1 s2 ∈ l.foldl (inferStep l s1) acc :=
            inner_hit l s1 s2 hne hsub hnotin l acc h2
          exact foldl_sub _ (fun acc' t => foldl_sub _ (inferStep_sub l t) l acc') tl _ hin
        · simp only [List.foldl_cons]
          exact ih _ hmem'
  exact houter l [] h1

/-- When the scan queues nothing, every subset pair's difference sentence
is already held. -/
lemma inferNew_saturated {l : List Sentence} (h : inferNew l = [])
    {s1 s2 : Sentence} (h1 : s1 ∈ l) (h2 : s2 ∈ l) (hne : s1 ≠ s2)
    (hsub : s1.cells ⊆ s2.cells) : inferred s1 s2 ∈ l := by
  by_contra hnot
  have := inferNew_hit h1 h2 hne hsub hnot
  rw [h] at this
  cases this

/-- Everything the scan queues is new, and is the difference sentence of a
subset pair of held sentences. -/
lemma inferNew_mem {l : List Sentence} {x : Sentence} (hx : x ∈ inferNew l) :
    x ∉ l ∧ ∃ s1 ∈ l, ∃ s2 ∈ l, s1.cells ⊆ s2.cells ∧ x = inferred s1 s2 := by
  set P : Sentence → Prop :=
    fun x => x ∉ l ∧ ∃ s1 ∈ l, ∃ s2 ∈ l, s1.cells ⊆ s2.cells ∧ x = inferred s1 s2 with hP
  have hstep : ∀ s1 ∈ l, ∀ acc s2, s2 ∈ l → (∀ y ∈ acc, P y) →
      ∀ y ∈ inferStep l s1 acc s2, P y := by
    intro s1 hs1 acc s2 hs2 hacc y hy
    unfold inferStep at hy
    split_ifs at hy with hg1 hg2
    · rcases List.mem_append.mp hy with hy' | hy'
      · exact hacc y hy'
      · rw [List.mem_singleton.mp hy']
        exact ⟨hg2.1, s1, hs1, s2, hs2, hg1.2, rfl⟩
    · exact hacc y hy
    · exact hacc y hy
  have hinner : ∀ s1 ∈ l, ∀ (iter : List Sentence), (∀ y ∈ iter, y ∈ l) →
      ∀ acc, (∀ y ∈ acc, P y) → ∀ y ∈ iter.foldl (inferStep l s1) acc, P y := by
    intro s1 hs1 iter
    induction iter with
    | nil => intro _ acc hacc; exact hacc
    | cons a tl ih =>
        intro hiter acc hacc
        simp only [List.foldl_cons]
        exact ih (fun y hy => hiter y (List.mem_cons_of_mem a hy)) _
          (hstep s1 hs1 acc a (hiter a (List.mem_cons_self a tl)) hacc)
  have houter : ∀ (iter : List Sentence), (∀ y ∈ iter, y ∈ l) →
      ∀ acc, (∀ y ∈ acc, P y) →
      ∀ y ∈ iter.foldl (fun acc t => l.foldl (inferStep l t) acc) acc, P y := by
    intro iter
    induction iter with
    | nil => intro _ acc hacc; exact hacc
    | cons a tl ih =>
        intro hiter acc hacc
        simp only [List.foldl_cons]
        exact ih (fun y hy => hiter y (List.mem_cons_of_mem a hy)) _
          (hinner a (hiter a (List.mem_cons_self a tl)) l (fun y hy => hy) acc hacc)
  exact houter l (fun y hy => hy) [] (fun y hy => by cases hy) x hx

/-! ## The closure loop: exit characterisation -/

lemma closurePass_eq_false {s t : MinesweeperAI}
    (h : closurePass s = (t, false)) :
    t = broadcastPhase s ∧ inferNew (broadcastPhase s).knowledge = [] := by
  unfold closurePass at h
  have hns : inferNew (broadcastPhase s).knowledge = [] := by
    have := congrArg Prod.snd h
    simpa [List.isEmpty_iff] using this
  have ht := congrArg Prod.fst h
  simp only at ht
  rw [hns] at ht
  refine ⟨?_, hns⟩
  rw [← ht]
  simp

lemma runClosure_some_saturated :
    ∀ (fuel : Nat) (s s' : MinesweeperAI), runClosure fuel s = some s' →
      inferNew s'.knowledge = [] := by
  intro fuel
  induction fuel with
  | zero => intro s s' h; cases h
  | succ n ih =>
      intro s s' h
      unfold runClosure at h
      rcases hcp : closurePass s with ⟨t, b⟩
      rw [hcp] at h
      cases b with
      | true => exact ih t s' h
      | false =>
          have ht : t = s' := by
            simpa using h
          rcases closurePass_eq_false hcp with ⟨ht2, hns⟩
          rw [← ht, ht2]
          exact hns

/-- C3: at exit from `add_knowledge`, subset-resolution is saturated: for
every pair of held sentences with `A.cells ⊆ B.cells`, the difference
sentence `(B.cells − A.cells, B.count − A.count)` is itself held, or every
cell in it (there are none when `A = B`) is already resolved. -/
theorem C3_subset_inference_saturated (fuel : Nat) (s s' : MinesweeperAI)
    (cell : Cell) (count : Int)
    (h : add_knowledge fuel s cell count = some s') :
    ∀ A ∈ s'.knowledge, ∀ B ∈ s'.knowledge, A.cells ⊆ B.cells →
      (⟨B.cells \ A.cells, B.count - A.count⟩ : Sentence) ∈ s'.knowledge ∨
      (B.cells \ A.cells) ⊆ s'.mines ∪ s'.safes := by
  intro A hA B hB hsub
  by_cases hAB : A = B
  · right
    subst hAB
    simp
  · left
    exact inferNew_saturated (runClosure_some_saturated fuel _ s' h) hA hB hAB hsub

/-! ## The minimum-choice helper -/

lemma minCell_eq_none_iff (X : Finset Cell) : minCell X = none ↔ X = ∅ := by
  induction X using Finset.induction_on with
  | empty => simp [minCell]
  | @insert a X ha ih =>
      unfold minCell at *
      rw [Finset.fold_insert ha]
      constructor
      · intro h
        cases hrest : Finset.fold optCellMin none (fun c => some c) X <;>
          · rw [hrest] at h
            simp [optCellMin] at h
      · intro h
        exact absurd h (Finset.insert_ne_empty a X)

lemma minCell_mem {X : Finset Cell} {c : Cell} (h : minCell X = some c) :
    c ∈ X := by
  induction X using Finset.induction_on generalizing c with
  | empty => simp [minCell] at h
  | @insert a X ha ih =>
      unfold minCell at *
      rw [Finset.fold_insert ha] at h
      cases hrest : Finset.fold optCellMin none (fun c => some c) X with
      | none =>
          rw [hrest] at h
          simp only [optCellMin] at h
          rw [Option.some_inj.mp h]
          exact Finset.mem_insert_self c X
      | some b =>
          rw [hrest] at h
          simp only [optCellMin] at h
          have hb : b ∈ X := ih hrest
          rw [← Option.some_inj.mp h]
          unfold cellMin
          split_ifs
          · exact Finset.mem_insert_self a X
          · exact Finset.mem_insert_of_mem hb

/-! ## Preservation of state components across the closure loop -/

lemma foldl_mark_safe_moves (L : List Cell) (s : MinesweeperAI) :
    (L.foldl (fun st c => st.mark_safe c) s).moves_made = s.moves_made := by
  induction L generalizing s with
  | nil => rfl
  | cons c tl ih => simp only [List.foldl_cons]; exact ih (s.mark_safe c)

lemma foldl_mark_safe_safes_sub (L : List Cell) (s : MinesweeperAI) :
    s.safes ⊆ (L.foldl (fun st c => st.mark_safe c) s).safes := by
  induction L generalizing s with
  | nil => exact Finset.Subset.refl _
  | cons c tl ih =>
      simp only [List.foldl_cons]
      exact Finset.Subset.trans (Finset.subset_insert c s.safes) (ih (s.mark_safe c))

lemma foldl_mark_mine_moves (L : List Cell) (s : MinesweeperAI) :
    (L.foldl (fun st c => st.mark_mine c) s).moves_made = s.moves_made := by
  induction L generalizing s with
  | nil => rfl
  | cons c tl ih => simp only [List.foldl_cons]; exact ih (s.mark_mine c)

lemma foldl_mark_mine_safes (L : List Cell) (s : MinesweeperAI) :
    (L.foldl (fun st c => st.mark_mine c) s).safes = s.safes := by
  induction L generalizing s with
  | nil => rfl
  | cons c tl ih => simp only [List.foldl_cons]; exact ih (s.mark_mine c)

lemma broadcastOne_fields (s : MinesweeperAI) (i : Nat) :
    (broadcastOne s i).moves_made = s.moves_made ∧
    (broadcastOne s i).height = s.height ∧
    (broadcastOne s i).width = s.width ∧
    s.mines ⊆ (broadcastOne s i).mines ∧
    s.safes ⊆ (broadcastOne s i).safes := by
  unfold broadcastOne
  cases s.knowledge[i]? with
  | none => exact ⟨rfl, rfl, rfl, Finset.Subset.refl _, Finset.Subset.refl _⟩
  | some t =>
      simp only
      cases (broadcastMines s t.known_mines).knowledge[i]? with
      | none =>
          exact ⟨rfl, rfl, rfl, Finset.subset_union_left, Finset.Subset.refl _⟩
      | some t2 =>
          exact ⟨rfl, rfl, rfl, Finset.subset_union_left,
            Finset.subset_union_left⟩

lemma broadcastPhase_fields (s : MinesweeperAI) :
    (broadcastPhase s).moves_made = s.moves_made ∧
    (broadcastPhase s).height = s.height ∧
    (broadcastPhase s).width = s.width ∧
    s.mines ⊆ (broadcastPhase s).mines ∧
    s.safes ⊆ (broadcastPhase s).safes := by
  unfold broadcastPhase
  generalize (List.range s.knowledge.length) = l
  induction l generalizing s with
  | nil => exact ⟨rfl, rfl, rfl, Finset.Subset.refl _, Finset.Subset.refl _⟩
  | cons i tl ih =>
      simp only [List.foldl_cons]
      obtain ⟨h1, h2, h3, h4, h5⟩ := broadcastOne_fields s i
      obtain ⟨g1, g2, g3, g4, g5⟩ := ih (broadcastOne s i)
      exact ⟨g1.trans h1, g2.trans h2, g3.trans h3, h4.trans g4, h5.trans g5⟩

lemma closurePass_fst (s : MinesweeperAI) :
    (closurePass s).1 = { broadcastPhase s with
      knowledge := (broadcastPhase s).knowledge ++
        inferNew (broadcastPhase s).knowledge } := rfl

lemma runClosure_fields :
    ∀ (fuel : Nat) (s s' : MinesweeperAI), runClosure fuel s = some s' →
      s'.moves_made = s.moves_made ∧ s'.height = s.height ∧
      s'.width = s.width ∧ s.mines ⊆ s'.mines ∧ s.safes ⊆ s'.safes := by
  intro fuel
  induction fuel with
  | zero => intro s s' h; cases h
  | succ n ih =>
      intro s s' h
      unfold runClosure at h
      rcases hcp : closurePass s with ⟨t, b⟩
      rw [hcp] at h
      have ht : t.moves_made = s.moves_made ∧ t.height = s.height ∧
          t.width = s.width ∧ s.mines ⊆ t.mines ∧ s.safes ⊆ t.safes := by
        have h0 := congrArg Prod.fst hcp
        rw [closurePass_fst] at h0
        simp only at h0
        rw [← h0]
        exact broadcastPhase_fields s
      cases b with
      | true =>
          obtain ⟨g1, g2, g3, g4, g5⟩ := ih t s' h
          exact ⟨g1.trans ht.1, g2.trans ht.2.1, g3.trans ht.2.2.1,
            ht.2.2.2.1.trans g4, ht.2.2.2.2.trans g5⟩
      | false =>
          cases h
          exact ht

lemma add_knowledge_raw_fields (s : MinesweeperAI) (cell : Cell) (count : Int) :
    (add_knowledge_raw s cell count).moves_made = insert cell s.moves_made ∧
    cell ∈ (add_knowledge_raw s cell count).safes := by
  unfold add_knowledge_raw
  simp only
  split_ifs <;>
    exact ⟨by
        first
          | rfl
          | (try simp only [foldl_mark_mine_moves, foldl_mark_safe_moves]); rfl,
      by
        (try simp only [foldl_mark_mine_safes])
        first
          | exact foldl_mark_safe_safes_sub _ _ (Finset.mem_insert_self _ _)
          | exact Finset.mem_insert_self _ _⟩

/-! ## Broadcast on a state whose sentences all have empty cell sets -/

lemma resolve_mines_empty (t : Sentence) : t.resolve_mines ∅ = t := by
  unfold Sentence.resolve_mines
  simp

lemma resolve_safes_empty (t : Sentence) : t.resolve_safes ∅ = t := by
  unfold Sentence.resolve_safes
  simp

lemma broadcastMines_empty (s : MinesweeperAI) : broadcastMines s ∅ = s := by
  unfold broadcastMines
  have h : (fun t => Sentence.resolve_mines t ∅) = id := funext resolve_mines_empty
  rw [h, List.map_id]
  simp

lemma broadcastSafes_empty (s : MinesweeperAI) : broadcastSafes s ∅ = s := by
  unfold broadcastSafes
  have h : (fun t => Sentence.resolve_safes t ∅) = id := funext resolve_safes_empty
  rw [h, List.map_id]
  simp

lemma known_mines_of_empty_cells {t : Sentence} (h : t.cells = ∅) :
    t.known_mines = ∅ := by
  unfold Sentence.known_mines
  split_ifs <;> simp [h]

lemma known_safes_of_empty_cells {t : Sentence} (h : t.cells = ∅) :
    t.known_safes = ∅ := by
  unfold Sentence.known_safes
  split_ifs <;> simp [h]

lemma broadcastOne_of_empty_cells {s : MinesweeperAI}
    (h : ∀ t ∈ s.knowledge, t.cells = ∅) (i : Nat) : broadcastOne s i = s := by
  unfold broadcastOne
  cases hget : s.knowledge[i]? with
  | none => rfl
  | some t =>
      have ht : t ∈ s.knowledge := List.getElem?_mem hget
      simp only
      rw [known_mines_of_empty_cells (h t ht), broadcastMines_empty, hget]
      simp only
      rw [known_safes_of_empty_cells (h t ht), broadcastSafes_empty]

lemma broadcastPhase_of_empty_cells {s : MinesweeperAI}
    (h : ∀ t ∈ s.knowledge, t.cells = ∅) : broadcastPhase s = s := by
  unfold broadcastPhase
  generalize (List.range s.knowledge.length) = l
  induction l with
  | nil => rfl
  | cons i tl ih =>
      simp only [List.foldl_cons]
      rw [broadcastOne_of_empty_cells h i]
      exact ih

/-! ## A reachable state on which the closure loop runs forever -/

/-- The shape that makes the closure loop diverge: every held sentence has
an empty cell set, and two held counts `a < b` with `b` positive bound all
held counts.  Each pass then derives the strictly smaller new count
`a - b`, so a pass always queues a new sentence. -/
def Rdiv (l : List Sentence) : Prop :=
  (∀ t ∈ l, t.cells = ∅) ∧
  ∃ a b : Int, (⟨∅, a⟩ : Sentence) ∈ l ∧ (⟨∅, b⟩ : Sentence) ∈ l ∧
    a < b ∧ 0 < b ∧ ∀ t ∈ l, a ≤ t.count ∧ t.count ≤ b

lemma Rdiv_step {l : List Sentence} (h : Rdiv l) :
    inferNew l ≠ [] ∧ Rdiv (l ++ inferNew l) := by
  obtain ⟨hemp, a, b, ha, hb, hab, hbpos, hbound⟩ := h
  have hne : (⟨∅, b⟩ : Sentence) ≠ ⟨∅, a⟩ := by
    intro heq
    have hba : b = a := congrArg Sentence.count heq
    omega
  have hinf : inferred ⟨∅, b⟩ ⟨∅, a⟩ = ⟨∅, a - b⟩ := by
    unfold inferred
    simp
  have hnotin : inferred ⟨∅, b⟩ ⟨∅, a⟩ ∉ l := by
    rw [hinf]
    intro hmem
    have h2 : a ≤ a - b := (hbound _ hmem).1
    omega
  have hhit : inferred ⟨∅, b⟩ ⟨∅, a⟩ ∈ inferNew l :=
    inferNew_hit hb ha hne (by simp [Finset.Subset.refl]) hnotin
  have hnsne : inferNew l ≠ [] := List.ne_nil_of_mem hhit
  refine ⟨hnsne, ?_, ?_⟩
  · intro t ht
    rcases List.mem_append.mp ht with ht' | ht'
    · exact hemp t ht'
    · obtain ⟨-, s1, hs1, s2, hs2, -, rfl⟩ := inferNew_mem ht'
      unfold inferred
      simp [hemp s2 hs2]
  · have hnew_bound : ∀ t ∈ inferNew l, a - b ≤ t.count ∧ t.count ≤ b - a := by
      intro t ht
      obtain ⟨-, s1, hs1, s2, hs2, -, rfl⟩ := inferNew_mem ht
      unfold inferred
      obtain ⟨h1a, h1b⟩ := hbound s1 hs1
      obtain ⟨h2a, h2b⟩ := hbound s2 hs2
      simp only
      omega
    rcases lt_or_le a 0 with hneg | hpos
    · -- new bounds [a - b, b - a], both witnessed
      have hne2 : (⟨∅, a⟩ : Sentence) ≠ ⟨∅, b⟩ := fun h => hne h.symm
      have hinf2 : inferred ⟨∅, a⟩ ⟨∅, b⟩ = ⟨∅, b - a⟩ := by
        unfold inferred
        simp
      have hnotin2 : inferred ⟨∅, a⟩ ⟨∅, b⟩ ∉ l := by
        rw [hinf2]
        intro hmem
        have h2 : b - a ≤ b := (hbound _ hmem).2
        omega
      have hhit2 : inferred ⟨∅, a⟩ ⟨∅, b⟩ ∈ inferNew l :=
        inferNew_hit ha hb hne2 (by simp [Finset.Subset.refl]) hnotin2
      refine ⟨a - b, b - a, ?_, ?_, by omega, by omega, ?_⟩
      · rw [← hinf]
        exact List.mem_append_right l hhit
      · rw [← hinf2]
        exact List.mem_append_right l hhit2
      · intro t ht
        rcases List.mem_append.mp ht with ht' | ht'
        · have := hbound t ht'
          omega
        · have := hnew_bound t ht'
          omega
    · -- new bounds [a - b, b], witnessed by the new minimum and the old b
      refine ⟨a - b, b, ?_, List.mem_append_left _ hb, by omega, hbpos, ?_⟩
      · rw [← hinf]
        exact List.mem_append_right l hhit
      · intro t ht
        rcases List.mem_append.mp ht with ht' | ht'
        · have := hbound t ht'
          omega
        · have := hnew_bound t ht'
          omega

lemma Rdiv_runClosure_none {s : MinesweeperAI} (h : Rdiv s.knowledge) :
    ∀ fuel, runClosure fuel s = none := by
  intro fuel
  induction fuel generalizing s with
  | zero => rfl
  | succ n ih =>
      obtain ⟨hstep_ne, hstep_R⟩ := Rdiv_step h
      have hbp : broadcastPhase s = s := broadcastPhase_of_empty_cells h.1
      have hpass : closurePass s =
          ({ s with knowledge := s.knowledge ++ inferNew s.knowledge }, true) := by
        have hemp : (inferNew s.knowledge).isEmpty = false := by
          cases hcase : inferNew s.knowledge with
          | nil => exact absurd hcase hstep_ne
          | cons x xs => rfl
        show ({ broadcastPhase s with
            knowledge := (broadcastPhase s).knowledge ++
              inferNew (broadcastPhase s).knowledge },
          !(inferNew (broadcastPhase s).knowledge).isEmpty) = _
        rw [hbp, hemp]
        rfl
      unfold runClosure
      rw [hpass]
      exact ih hstep_R

/-- The engine state after observing `(0,0)` with count `1` on a `1 × 1`
grid. -/
def kb1 : MinesweeperAI :=
  ⟨1, 1, {((0 : Int), (0 : Int))}, ∅, {((0 : Int), (0 : Int))}, [⟨∅, 1⟩]⟩

lemma kb1_raw : add_knowledge_raw kb1 ((0 : Int), (0 : Int)) 2 =
    ⟨1, 1, {((0 : Int), (0 : Int))}, ∅, {((0 : Int), (0 : Int))},
      [⟨∅, 1⟩, ⟨∅, 2⟩]⟩ := by decide

lemma kb1_diverges :
    ∀ fuel, add_knowledge fuel kb1 ((0 : Int), (0 : Int)) 2 = none := by
  intro fuel
  unfold add_knowledge
  rw [kb1_raw]
  apply Rdiv_runClosure_none
  refine ⟨by decide, 1, 2, by decide, by decide, by decide, by decide, by decide⟩

/-- C2 counterexample: on a `1 × 1` grid, observing `(0,0)` with count `1`
and then again with count `2` (counts no board can produce, but
`add_knowledge` accepts any) leaves the closure loop deriving a new
empty-cell sentence every pass: no amount of fuel finishes it. -/
theorem C2_counterexample :
    add_knowledge 1 (initAI 1 1) ((0 : Int), (0 : Int)) 1 = some kb1 ∧
    ¬ ∃ (fuel : Nat) (s' : MinesweeperAI),
        add_knowledge fuel kb1 ((0 : Int), (0 : Int)) 2 = some s' := by
  refine ⟨by decide, ?_⟩
  rintro ⟨fuel, s', h⟩
  rw [kb1_diverges fuel] at h
  cases h

/-- C10 counterexample: `add_knowledge` does not always return: the same
reachable `1 × 1` state as in the C2 counterexample makes its closure loop
run forever. -/
theorem C10_counterexample :
    add_knowledge 1 (initAI 1 1) ((0 : Int), (0 : Int)) 1 = some kb1 ∧
    ¬ ∃ (fuel : Nat) (s' : MinesweeperAI),
        add_knowledge fuel kb1 ((0 : Int), (0 : Int)) 2 = some s' := by
  refine ⟨by decide, ?_⟩
  rintro ⟨fuel, s', h⟩
  rw [kb1_diverges fuel] at h
  cases h

/-- C10 amended: the two move queries and the two marking helpers are
total with the stated `None` semantics; `add_knowledge` returns normally
whenever its closure loop terminates (which inconsistent observation
histories can prevent, see the C10 counterexample). -/
theorem C10_amended (s : MinesweeperAI) :
    (make_safe_move s = none ↔ s.safes.filter (fun c => c ∉ s.moves_made) = ∅) ∧
    (∀ c, make_safe_move s = some c → c ∈ s.safes ∧ c ∉ s.moves_made) ∧
    (make_random_move s = none ↔ availableMoves s = ∅) ∧
    (∀ c, make_random_move s = some c → c ∈ availableMoves s) ∧
    (∀ cell, cell ∈ (s.mark_mine cell).mines ∧ cell ∈ (s.mark_safe cell).safes) := by
  refine ⟨minCell_eq_none_iff _, fun c h => ?_, minCell_eq_none_iff _,
    fun c h => minCell_mem h,
    fun cell => ⟨Finset.mem_insert_self _ _, Finset.mem_insert_self _ _⟩⟩
  have hc := minCell_mem h
  exact Finset.mem_filter.mp hc

/-- Witness for C10 amended at a concrete state. -/
theorem C10_amended_witness : make_safe_move (initAI 2 2) = none := by
  have h := (C10_amended (initAI 2 2)).1
  exact h.mpr (by decide)

/-- C9 counterexample: the out-of-range cell `(100,100)` on an `8 × 8`
grid is not rejected: `add_knowledge` processes it fully, and the state
changes (`moves_made` gains the cell). -/
theorem C9_counterexample :
    add_knowledge 1 (initAI 8 8) ((100 : Int), (100 : Int)) 0 =
      some ⟨8, 8, {((100 : Int), (100 : Int))}, ∅,
        {((100 : Int), (100 : Int))}, [⟨∅, 0⟩]⟩ ∧
    ¬ inBounds 8 8 ((100 : Int), (100 : Int)) ∧
    (⟨8, 8, {((100 : Int), (100 : Int))}, ∅, {((100 : Int), (100 : Int))},
      [⟨∅, 0⟩]⟩ : MinesweeperAI).moves_made ≠ (initAI 8 8).moves_made := by
  refine ⟨by decide, by decide, by decide⟩

/-- C9 amended: an out-of-range cell is accepted and processed like any
other: it is recorded in `moves_made` and broadcast as safe; no rejection
or rollback happens. -/
theorem C9_amended (s : MinesweeperAI) (cell : Cell) (count : Int)
    (hout : ¬ inBounds s.height s.width cell) (fuel : Nat)
    (s' : MinesweeperAI) (hrun : add_knowledge fuel s cell count = some s') :
    s'.moves_made = insert cell s.moves_made ∧ cell ∈ s'.safes := by
  unfold add_knowledge at hrun
  obtain ⟨hm, -, -, -, hs⟩ := runClosure_fields fuel _ s' hrun
  obtain ⟨hm2, hs2⟩ := add_knowledge_raw_fields s cell count
  exact ⟨hm.trans hm2, hs hs2⟩

/-- Witness for C9 amended at the concrete out-of-range call. -/
theorem C9_amended_witness :
    (⟨8, 8, {((100 : Int), (100 : Int))}, ∅, {((100 : Int), (100 : Int))},
        [⟨∅, 0⟩]⟩ : MinesweeperAI).moves_made =
      insert ((100 : Int), (100 : Int)) (initAI 8 8).moves_made ∧
    ((100 : Int), (100 : Int)) ∈
      (⟨8, 8, {((100 : Int), (100 : Int))}, ∅, {((100 : Int), (100 : Int))},
        [⟨∅, 0⟩]⟩ : MinesweeperAI).safes :=
  C9_amended (initAI 8 8) ((100 : Int), (100 : Int)) 0 (by decide) 1 _ (by decide)

/-- Witness for C3 at a concrete terminating call. -/
theorem C3_witness :
    (⟨(∅ : Finset Cell) \ ∅, (1 : Int) - 1⟩ : Sentence) ∈ kb1.knowledge ∨
    ((∅ : Finset Cell) \ ∅) ⊆ kb1.mines ∪ kb1.safes :=
  C3_subset_inference_saturated 1 (initAI 1 1) kb1 ((0 : Int), (0 : Int)) 1
    (by decide) ⟨∅, 1⟩ (by decide) ⟨∅, 1⟩ (by decide) (by decide)

/-- The engine state after observing `(0,2)` (true count 1) on a `2 × 4`
grid whose mines are at `(0,0)` and `(0,1)`. -/
def C1s1 : MinesweeperAI :=
  ⟨2, 4, {((0 : Int), (2 : Int))}, ∅, {((0 : Int), (2 : Int))},
    [⟨{((0 : Int), (1 : Int)), ((0 : Int), (3 : Int)), ((1 : Int), (1 : Int)),
       ((1 : Int), (2 : Int)), ((1 : Int), (3 : Int))}, 1⟩]⟩

/-- … then `(1,0)` (true count 2). -/
def C1s2 : MinesweeperAI :=
  ⟨2, 4, {((0 : Int), (2 : Int)), ((1 : Int), (0 : Int))}, ∅,
    {((0 : Int), (2 : Int)), ((1 : Int), (0 : Int))},
    [⟨{((0 : Int), (1 : Int)), ((0 : Int), (3 : Int)), ((1 : Int), (1 : Int)),
       ((1 : Int), (2 : Int)), ((1 : Int), (3 : Int))}, 1⟩,
     ⟨{((0 : Int), (0 : Int)), ((0 : Int), (1 : Int)), ((1 : Int), (1 : Int))}, 2⟩]⟩

/-- … then `(1,1)` (true count 2): the state `add_knowledge` returns, still
holding the sentence `({(0,3),(1,3)}, 0)` whose safes were never
broadcast. -/
def C1exit : MinesweeperAI :=
  ⟨2, 4, {((0 : Int), (2 : Int)), ((1 : Int), (0 : Int)), ((1 : Int), (1 : Int))},
    {((0 : Int), (0 : Int)), ((0 : Int), (1 : Int))},
    {((0 : Int), (2 : Int)), ((1 : Int), (0 : Int)), ((1 : Int), (1 : Int)),
     ((1 : Int), (2 : Int))},
    [⟨{((0 : Int), (3 : Int)), ((1 : Int), (3 : Int))}, 0⟩, ⟨∅, 0⟩, ⟨∅, 0⟩]⟩

/-- Fieldwise extensionality for engine states (used to keep concrete
evaluations tractable: each field is decided separately). -/
lemma AI_ext {s t : MinesweeperAI} (h1 : s.height = t.height)
    (h2 : s.width = t.width) (h3 : s.moves_made = t.moves_made)
    (h4 : s.mines = t.mines) (h5 : s.safes = t.safes)
    (h6 : s.knowledge = t.knowledge) : s = t := by
  cases s; cases t; simp_all

/-- Chains one terminating closure pass into a full `add_knowledge`
evaluation (used to evaluate concrete calls stage by stage). -/
lemma add_knowledge_one_pass {s raw t : MinesweeperAI} {cell : Cell}
    {count : Int} (hraw : add_knowledge_raw s cell count = raw)
    (hcp : closurePass raw = (t, false)) :
    add_knowledge 1 s cell count = some t := by
  unfold add_knowledge
  rw [hraw]
  unfold runClosure
  rw [hcp]

/-- The raw (pre-closure) state of the first C1 observation. -/
def C1raw1 : MinesweeperAI :=
  ⟨2, 4, {((0 : Int), (2 : Int))}, ∅, {((0 : Int), (2 : Int))},
    [⟨{((0 : Int), (1 : Int)), ((0 : Int), (3 : Int)), ((1 : Int), (1 : Int)),
       ((1 : Int), (2 : Int)), ((1 : Int), (3 : Int))}, 1⟩]⟩

/-- The raw (pre-closure) state of the second C1 observation. -/
def C1raw2 : MinesweeperAI :=
  ⟨2, 4, {((0 : Int), (2 : Int)), ((1 : Int), (0 : Int))}, ∅,
    {((0 : Int), (2 : Int)), ((1 : Int), (0 : Int))},
    [⟨{((0 : Int), (1 : Int)), ((0 : Int), (3 : Int)), ((1 : Int), (1 : Int)),
       ((1 : Int), (2 : Int)), ((1 : Int), (3 : Int))}, 1⟩,
     ⟨{((0 : Int), (0 : Int)), ((0 : Int), (1 : Int)), ((1 : Int), (1 : Int))}, 2⟩]⟩

/-- The raw (pre-closure) state of the third C1 observation. -/
def C1raw3 : MinesweeperAI :=
  ⟨2, 4, {((0 : Int), (2 : Int)), ((1 : Int), (0 : Int)), ((1 : Int), (1 : Int))},
    ∅, {((0 : Int), (2 : Int)), ((1 : Int), (0 : Int)), ((1 : Int), (1 : Int))},
    [⟨{((0 : Int), (1 : Int)), ((0 : Int), (3 : Int)), ((1 : Int), (2 : Int)),
       ((1 : Int), (3 : Int))}, 1⟩,
     ⟨{((0 : Int), (0 : Int)), ((0 : Int), (1 : Int))}, 2⟩,
     ⟨{((0 : Int), (0 : Int)), ((0 : Int), (1 : Int)), ((1 : Int), (2 : Int))}, 2⟩]⟩

set_option maxRecDepth 200000 in
lemma C1_call1 :
    add_knowledge 1 (initAI 2 4) ((0 : Int), (2 : Int)) 1 = some C1s1 :=
  add_knowledge_one_pass
    (show _ = C1raw1 from
      AI_ext (by decide) (by decide) (by decide) (by decide) (by decide)
        (by decide))
    (Prod.ext
      (AI_ext (by decide) (by decide) (by decide) (by decide) (by decide)
        (by decide))
      (by decide))

set_option maxRecDepth 200000 in
lemma C1_call2 :
    add_knowledge 1 C1s1 ((1 : Int), (0 : Int)) 2 = some C1s2 :=
  add_knowledge_one_pass
    (show _ = C1raw2 from
      AI_ext (by decide) (by decide) (by decide) (by decide) (by decide)
        (by decide))
    (Prod.ext
      (AI_ext (by decide) (by decide) (by decide) (by decide) (by decide)
        (by decide))
      (by decide))

set_option maxRecDepth 200000 in
lemma C1_call3 :
    add_knowledge 1 C1s2 ((1 : Int), (1 : Int)) 2 = some C1exit :=
  add_knowledge_one_pass
    (show _ = C1raw3 from
      AI_ext (by decide) (by decide) (by decide) (by decide) (by decide)
        (by decide))
    (Prod.ext
      (AI_ext (by decide) (by decide) (by decide) (by decide) (by decide)
        (by decide))
      (by decide))

/-- C1 counterexample: a three-observation game on a `2 × 4` grid, every
count the true neighbour-mine count of the board with mines at `(0,0)` and
`(0,1)`, ends in a state that is not a fixed point of the closure: the
held sentence `({(0,3),(1,3)}, 0)` still yields a `known_safes` broadcast,
so re-running the closure changes the state (it marks those cells safe). -/
theorem C1_counterexample :
    runObs (initAI 2 4)
      [(((0 : Int), (2 : Int)), 1, 1), (((1 : Int), (0 : Int)), 2, 1),
       (((1 : Int), (1 : Int)), 2, 1)] = some C1exit ∧
    runClosure 1 C1exit ≠ some C1exit ∧
    (runClosure 1 C1exit).isSome = true ∧
    ((0 : Int), (3 : Int)) ∉ C1exit.safes ∧
    (⟨{((0 : Int), (3 : Int)), ((1 : Int), (3 : Int))}, 0⟩ : Sentence) ∈
      C1exit.knowledge := by
  refine ⟨?_, by decide, by decide, by decide, by decide⟩
  simp only [runObs, C1_call1, C1_call2, C1_call3]

/-- C1 amended: what does hold at exit: the subset-resolution step is
saturated (a pass derives no new sentence, which is the only condition the
loop's progress flag tracks), and the exit state is a full fixed point of
the closure pass exactly when its broadcast phase leaves it unchanged.
Broadcasts alone never count as progress, so pending broadcasts can
survive into the exit state. -/
theorem C1_amended (fuel : Nat) (s s' : MinesweeperAI) (cell : Cell)
    (count : Int) (h : add_knowledge fuel s cell count = some s') :
    inferNew s'.knowledge = [] ∧
    (broadcastPhase s' = s' → closurePass s' = (s', false)) := by
  have hsat := runClosure_some_saturated fuel _ s' h
  refine ⟨hsat, fun hbp => ?_⟩
  show ({ broadcastPhase s' with
      knowledge := (broadcastPhase s').knowledge ++
        inferNew (broadcastPhase s').knowledge },
    !(inferNew (broadcastPhase s').knowledge).isEmpty) = (s', false)
  rw [hbp, hsat]
  simp

/-- Witness for C1 amended at a concrete terminating call. -/
theorem C1_amended_witness :
    inferNew kb1.knowledge = [] ∧
    (broadcastPhase kb1 = kb1 → closurePass kb1 = (kb1, false)) :=
  C1_amended 1 (initAI 1 1) kb1 ((0 : Int), (0 : Int)) 1 (by decide)

/-- The raw (pre-closure) state of the first C6 observation. -/
def C6raw1 : MinesweeperAI :=
  ⟨3, 3, {((0 : Int), (0 : Int))},
    {((0 : Int), (1 : Int)), ((1 : Int), (0 : Int)), ((1 : Int), (1 : Int))},
    {((0 : Int), (0 : Int))},
    [⟨{((0 : Int), (1 : Int)), ((1 : Int), (0 : Int)), ((1 : Int), (1 : Int))}, 3⟩]⟩

/-- The state after the first C6 observation. -/
def C6s1 : MinesweeperAI :=
  ⟨3, 3, {((0 : Int), (0 : Int))},
    {((0 : Int), (1 : Int)), ((1 : Int), (0 : Int)), ((1 : Int), (1 : Int))},
    {((0 : Int), (0 : Int))}, [⟨∅, 0⟩]⟩

/-- The raw (pre-closure) state of the second C6 observation. -/
def C6raw2 : MinesweeperAI :=
  ⟨3, 3, {((0 : Int), (0 : Int)), ((1 : Int), (0 : Int))},
    {((0 : Int), (1 : Int)), ((1 : Int), (0 : Int)), ((1 : Int), (1 : Int))},
    {((0 : Int), (0 : Int)), ((1 : Int), (0 : Int)), ((2 : Int), (0 : Int)),
     ((2 : Int), (1 : Int))},
    [⟨∅, 0⟩, ⟨{((2 : Int), (0 : Int)), ((2 : Int), (1 : Int))}, 0⟩]⟩

/-- The state after the second C6 observation: `(1,0)` is in both
confirmed sets. -/
def C6state : MinesweeperAI :=
  ⟨3, 3, {((0 : Int), (0 : Int)), ((1 : Int), (0 : Int))},
    {((0 : Int), (1 : Int)), ((1 : Int), (0 : Int)), ((1 : Int), (1 : Int))},
    {((0 : Int), (0 : Int)), ((1 : Int), (0 : Int)), ((2 : Int), (0 : Int)),
     ((2 : Int), (1 : Int))},
    [⟨∅, 0⟩, ⟨∅, 0⟩]⟩

set_option maxRecDepth 200000 in
lemma C6_call1 :
    add_knowledge 1 (initAI 3 3) ((0 : Int), (0 : Int)) 3 = some C6s1 :=
  add_knowledge_one_pass
    (show _ = C6raw1 from
      AI_ext (by decide) (by decide) (by decide) (by decide) (by decide)
        (by decide))
    (Prod.ext
      (AI_ext (by decide) (by decide) (by decide) (by decide) (by decide)
        (by decide))
      (by decide))

set_option maxRecDepth 200000 in
lemma C6_call2 :
    add_knowledge 1 C6s1 ((1 : Int), (0 : Int)) 2 = some C6state :=
  add_knowledge_one_pass
    (show _ = C6raw2 from
      AI_ext (by decide) (by decide) (by decide) (by decide) (by decide)
        (by decide))
    (Prod.ext
      (AI_ext (by decide) (by decide) (by decide) (by decide) (by decide)
        (by decide))
      (by decide))

/-- C6 counterexample: on a `3 × 3` grid, observe `(0,0)` with count `3`
(all three neighbours become confirmed mines), then observe the confirmed
mine `(1,0)` itself: `add_knowledge` marks the observed cell safe without
checking it against `confirmed_mines`, so `(1,0)` ends up in both
confirmed sets. -/
theorem C6_counterexample :
    runObs (initAI 3 3)
      [(((0 : Int), (0 : Int)), 3, 1), (((1 : Int), (0 : Int)), 2, 1)] =
      some C6state ∧
    ¬ (C6state.mines ∩ C6state.safes = ∅) ∧
    ((1 : Int), (0 : Int)) ∈ C6state.mines ∩ C6state.safes := by
  refine ⟨?_, by decide, by decide⟩
  simp only [runObs, C6_call1, C6_call2]

/-! ## Purity: no held sentence mentions a confirmed cell

`PureT` is the invariant of claim C5.  During one `add_knowledge` call the
freshly appended sentence can temporarily mention already-confirmed cells,
but only in the two self-clearing shapes `TypeS` (a count-0 sentence whose
cells were just broadcast safe) and `TypeM` (an all-mines sentence whose
cells were just broadcast as mines); the first closure pass empties both. -/

def PureT (s : MinesweeperAI) (t : Sentence) : Prop :=
  ∀ c ∈ t.cells, c ∉ s.mines ∧ c ∉ s.safes

def TypeS (s : MinesweeperAI) (t : Sentence) : Prop :=
  t.count = 0 ∧ ∀ c ∈ t.cells, c ∈ s.safes ∧ c ∉ s.mines

def TypeM (s : MinesweeperAI) (t : Sentence) : Prop :=
  t.count = (t.cells.card : Int) ∧ 0 < t.count ∧
    ∀ c ∈ t.cells, c ∈ s.mines ∧ c ∉ s.safes

/-- Every held sentence is pure or in one of the self-clearing shapes. -/
def Qinv (s : MinesweeperAI) : Prop :=
  ∀ t ∈ s.knowledge, PureT s t ∨ TypeS s t ∨ TypeM s t

/-- Every held sentence is pure (the exit-state invariant of C5). -/
def pureAll (s : MinesweeperAI) : Prop :=
  ∀ t ∈ s.knowledge, PureT s t

lemma pureAll_Qinv {s : MinesweeperAI} (h : pureAll s) : Qinv s :=
  fun t ht => Or.inl (h t ht)

/-! ### One sentence under a bulk broadcast -/

lemma resolve_mines_cells (t : Sentence) (X : Finset Cell) :
    (t.resolve_mines X).cells = t.cells \ X := rfl

lemma resolve_safes_cells (t : Sentence) (X : Finset Cell) :
    (t.resolve_safes X).cells = t.cells \ X := rfl

lemma PureT_broadcastMines {s : MinesweeperAI} {t : Sentence}
    {X : Finset Cell} (hX : ∀ x ∈ X, x ∉ s.safes) (h : PureT s t) :
    PureT (broadcastMines s X) (t.resolve_mines X) := by
  intro c hc
  rw [resolve_mines_cells, Finset.mem_sdiff] at hc
  obtain ⟨h1, h2⟩ := h c hc.1
  refine ⟨?_, h2⟩
  show c ∉ s.mines ∪ X
  rw [Finset.mem_union]
  rintro (h3 | h3)
  · exact h1 h3
  · exact hc.2 h3

lemma PureT_broadcastSafes {s : MinesweeperAI} {t : Sentence}
    {X : Finset Cell} (hX : ∀ x ∈ X, x ∉ s.mines) (h : PureT s t) :
    PureT (broadcastSafes s X) (t.resolve_safes X) := by
  intro c hc
  rw [resolve_safes_cells, Finset.mem_sdiff] at hc
  obtain ⟨h1, h2⟩ := h c hc.1
  refine ⟨h1, ?_⟩
  show c ∉ s.safes ∪ X
  rw [Finset.mem_union]
  rintro (h3 | h3)
  · exact h2 h3
  · exact hc.2 h3

lemma TypeS_broadcastMines {s : MinesweeperAI} {t : Sentence}
    {X : Finset Cell} (hX : ∀ x ∈ X, x ∉ s.safes) (h : TypeS s t) :
    TypeS (broadcastMines s X) (t.resolve_mines X) := by
  obtain ⟨hcount, hcells⟩ := h
  have hdisj : t.cells ∩ X = ∅ := by
    rw [Finset.eq_empty_iff_forall_not_mem]
    intro c hc
    rw [Finset.mem_inter] at hc
    exact hX c hc.2 (hcells c hc.1).1
  constructor
  · show t.count - ((t.cells ∩ X).card : Int) = 0
    rw [hdisj]
    simp [hcount]
  · intro c hc
    rw [resolve_mines_cells, Finset.mem_sdiff] at hc
    obtain ⟨h1, h2⟩ := hcells c hc.1
    refine ⟨h1, ?_⟩
    show c ∉ s.mines ∪ X
    rw [Finset.mem_union]
    rintro (h3 | h3)
    · exact h2 h3
    · exact hc.2 h3

lemma TypeS_broadcastSafes {s : MinesweeperAI} {t : Sentence}
    {X : Finset Cell} (hX : ∀ x ∈ X, x ∉ s.mines) (h : TypeS s t) :
    TypeS (broadcastSafes s X) (t.resolve_safes X) := by
  obtain ⟨hcount, hcells⟩ := h
  refine ⟨hcount, fun c hc => ?_⟩
  rw [resolve_safes_cells, Finset.mem_sdiff] at hc
  obtain ⟨h1, h2⟩ := hcells c hc.1
  exact ⟨Finset.mem_union_left _ h1, h2⟩

lemma TypeM_broadcastMines {s : MinesweeperAI} {t : Sentence}
    {X : Finset Cell} (hX : ∀ x ∈ X, x ∉ s.safes) (h : TypeM s t) :
    PureT (broadcastMines s X) (t.resolve_mines X) ∨
    TypeM (broadcastMines s X) (t.resolve_mines X) := by
  obtain ⟨hcount, hpos, hcells⟩ := h
  have hcard : (t.resolve_mines X).count = ((t.cells \ X).card : Int) := by
    show t.count - ((t.cells ∩ X).card : Int) = _
    rw [hcount]
    have hsum := Finset.card_sdiff_add_card_inter t.cells X
    omega
  by_cases hzero : (t.cells \ X).card = 0
  · left
    intro c hc
    rw [resolve_mines_cells] at hc
    rw [Finset.card_eq_zero] at hzero
    rw [hzero] at hc
    cases Finset.not_mem_empty c hc
  · right
    refine ⟨hcard, ?_, fun c hc => ?_⟩
    · rw [hcard]
      omega
    · rw [resolve_mines_cells, Finset.mem_sdiff] at hc
      obtain ⟨h1, h2⟩ := hcells c hc.1
      exact ⟨Finset.mem_union_left _ h1, h2⟩

lemma TypeM_broadcastSafes {s : MinesweeperAI} {t : Sentence}
    {X : Finset Cell} (hX : ∀ x ∈ X, x ∉ s.mines) (h : TypeM s t) :
    TypeM (broadcastSafes s X) (t.resolve_safes X) := by
  obtain ⟨hcount, hpos, hcells⟩ := h
  have hdisj : t.cells \ X = t.cells := by
    rw [Finset.sdiff_eq_self_iff_disjoint, Finset.disjoint_left]
    intro c hc
    exact fun hcX => hX c hcX (hcells c hc).1
  constructor
  · show t.count = (((t.cells \ X)).card : Int)
    rw [hdisj]
    exact hcount
  · refine ⟨hpos, fun c hc => ?_⟩
    rw [resolve_safes_cells, hdisj] at hc
    obtain ⟨h1, h2⟩ := hcells c hc
    refine ⟨h1, ?_⟩
    show c ∉ s.safes ∪ X
    rw [Finset.mem_union]
    rintro (h3 | h3)
    · exact h2 h3
    · exact hX c h3 h1

/-! ### The whole state under a bulk broadcast -/

lemma broadcastMines_knowledge_get (s : MinesweeperAI) (X : Finset Cell)
    (i : Nat) : (broadcastMines s X).knowledge[i]? =
      (s.knowledge[i]?).map (fun t => t.resolve_mines X) :=
  List.getElem?_map _ _ _

lemma broadcastSafes_knowledge_get (s : MinesweeperAI) (X : Finset Cell)
    (i : Nat) : (broadcastSafes s X).knowledge[i]? =
      (s.knowledge[i]?).map (fun t => t.resolve_safes X) :=
  List.getElem?_map _ _ _

lemma Qinv_broadcastMines {s : MinesweeperAI} {X : Finset Cell}
    (hX : ∀ x ∈ X, x ∉ s.safes) (h : Qinv s) : Qinv (broadcastMines s X) := by
  intro t' ht'
  obtain ⟨t, ht, rfl⟩ := List.mem_map.mp ht'
  rcases h t ht with hp | hs | hm
  · exact Or.inl (PureT_broadcastMines hX hp)
  · exact Or.inr (Or.inl (TypeS_broadcastMines hX hs))
  · rcases TypeM_broadcastMines hX hm with h1 | h1
    · exact Or.inl h1
    · exact Or.inr (Or.inr h1)

lemma Qinv_broadcastSafes {s : MinesweeperAI} {X : Finset Cell}
    (hX : ∀ x ∈ X, x ∉ s.mines) (h : Qinv s) : Qinv (broadcastSafes s X) := by
  intro t' ht'
  obtain ⟨t, ht, rfl⟩ := List.mem_map.mp ht'
  rcases h t ht with hp | hs | hm
  · exact Or.inl (PureT_broadcastSafes hX hp)
  · exact Or.inr (Or.inl (TypeS_broadcastSafes hX hs))
  · exact Or.inr (Or.inr (TypeM_broadcastSafes hX hm))

/-! ### What a firing sentence can broadcast -/

lemma known_mines_sub_cells (t : Sentence) : t.known_mines ⊆ t.cells := by
  unfold Sentence.known_mines
  split_ifs
  · exact Finset.Subset.refl _
  · exact Finset.empty_subset _

lemma known_safes_sub_cells (t : Sentence) : t.known_safes ⊆ t.cells := by
  unfold Sentence.known_safes
  split_ifs
  · exact Finset.Subset.refl _
  · exact Finset.empty_subset _

lemma known_mines_count {t : Sentence} {x : Cell} (hx : x ∈ t.known_mines) :
    t.count = (t.cells.card : Int) ∧ t.count ≠ 0 := by
  unfold Sentence.known_mines at hx
  split_ifs at hx with h
  · exact h
  · cases Finset.not_mem_empty x hx

lemma known_safes_count {t : Sentence} {y : Cell} (hy : y ∈ t.known_safes) :
    t.count = 0 := by
  unfold Sentence.known_safes at hy
  split_ifs at hy with h
  · exact h
  · cases Finset.not_mem_empty y hy

lemma known_mines_not_safe {s : MinesweeperAI} (hQ : Qinv s) {t : Sentence}
    (ht : t ∈ s.knowledge) : ∀ x ∈ t.known_mines, x ∉ s.safes := by
  intro x hx
  have hcell : x ∈ t.cells := known_mines_sub_cells t hx
  obtain ⟨hcard, hne⟩ := known_mines_count hx
  rcases hQ t ht with hp | hsn | hm
  · exact (hp x hcell).2
  · exact absurd hsn.1 hne
  · exact (hm.2.2 x hcell).2

lemma known_safes_not_mine {s : MinesweeperAI} (hQ : Qinv s) {t : Sentence}
    (ht : t ∈ s.knowledge) : ∀ y ∈ t.known_safes, y ∉ s.mines := by
  intro y hy
  have hcell : y ∈ t.cells := known_safes_sub_cells t hy
  have hzero : t.count = 0 := known_safes_count hy
  rcases hQ t ht with hp | hsn | hm
  · exact (hp y hcell).1
  · exact (hsn.2 y hcell).2
  · exact absurd hzero (by have := hm.2.1; omega)

lemma known_mines_of_count_zero {t : Sentence} (h : t.count = 0) :
    t.known_mines = ∅ := by
  unfold Sentence.known_mines
  rw [if_neg]
  rintro ⟨-, h2⟩
  exact h2 h

lemma known_mines_of_TypeM {s : MinesweeperAI} {t : Sentence}
    (h : TypeM s t) : t.known_mines = t.cells := by
  unfold Sentence.known_mines
  rw [if_pos ⟨h.1, by have := h.2.1; omega⟩]

lemma known_safes_of_count_zero {t : Sentence} (h : t.count = 0) :
    t.known_safes = t.cells := by
  unfold Sentence.known_safes
  rw [if_pos h]

lemma PureT_of_empty_cells {s : MinesweeperAI} {t : Sentence}
    (h : t.cells = ∅) : PureT s t := by
  intro c hc
  rw [h] at hc
  cases Finset.not_mem_empty c hc

lemma resolve_mines_self_cells (t : Sentence) :
    (t.resolve_mines t.cells).cells = ∅ := by
  rw [resolve_mines_cells, Finset.sdiff_self]

lemma resolve_safes_self_cells (t : Sentence) :
    (t.resolve_safes t.cells).cells = ∅ := by
  rw [resolve_safes_cells, Finset.sdiff_self]

lemma known_mines_cases (t : Sentence) :
    t.known_mines = ∅ ∨ t.known_mines = t.cells := by
  unfold Sentence.known_mines
  split_ifs
  · exact Or.inr rfl
  · exact Or.inl rfl

lemma broadcastOne_eq_none {s : MinesweeperAI} {i : Nat}
    (h : s.knowledge[i]? = none) : broadcastOne s i = s := by
  unfold broadcastOne
  rw [h]

lemma broadcastMines_get_some {s : MinesweeperAI} {i : Nat} {t : Sentence}
    (h : s.knowledge[i]? = some t) (X : Finset Cell) :
    (broadcastMines s X).knowledge[i]? = some (t.resolve_mines X) := by
  rw [broadcastMines_knowledge_get, h, Option.map_some']

lemma broadcastOne_eq_some {s : MinesweeperAI} {i : Nat} {t : Sentence}
    (h : s.knowledge[i]? = some t) :
    broadcastOne s i =
      broadcastSafes (broadcastMines s t.known_mines)
        ((t.resolve_mines t.known_mines).known_safes) := by
  unfold broadcastOne
  rw [h]
  simp only
  rw [broadcastMines_get_some h t.known_mines]

/-- Processing index `i` of the broadcast scan preserves `Qinv`, makes the
sentence at `i` pure, and keeps every already-pure position pure. -/
lemma broadcastOne_step (s : MinesweeperAI) (i : Nat) (hQ : Qinv s) :
    Qinv (broadcastOne s i) ∧
    (∀ t', (broadcastOne s i).knowledge[i]? = some t' →
      PureT (broadcastOne s i) t') ∧
    (∀ j : Nat, (∀ u, s.knowledge[j]? = some u → PureT s u) →
      ∀ u', (broadcastOne s i).knowledge[j]? = some u' →
        PureT (broadcastOne s i) u') := by
  cases hget : s.knowledge[i]? with
  | none =>
      rw [broadcastOne_eq_none hget]
      refine ⟨hQ, fun t' ht' => ?_, fun j hj u' hu' => hj u' hu'⟩
      rw [hget] at ht'
      cases ht'
  | some t =>
      rw [broadcastOne_eq_some hget]
      have htmem : t ∈ s.knowledge := List.getElem?_mem hget
      have hXk : ∀ x ∈ t.known_mines, x ∉ s.safes :=
        known_mines_not_safe hQ htmem
      have hQ1 : Qinv (broadcastMines s t.known_mines) :=
        Qinv_broadcastMines hXk hQ
      have hget2 : (broadcastMines s t.known_mines).knowledge[i]? =
          some (t.resolve_mines t.known_mines) :=
        broadcastMines_get_some hget t.known_mines
      have ht2mem : t.resolve_mines t.known_mines ∈
          (broadcastMines s t.known_mines).knowledge :=
        List.getElem?_mem hget2
      have hYk : ∀ y ∈ (t.resolve_mines t.known_mines).known_safes,
          y ∉ (broadcastMines s t.known_mines).mines :=
        known_safes_not_mine hQ1 ht2mem
      have hQ2 := Qinv_broadcastSafes hYk hQ1
      have hkey : PureT (broadcastMines s t.known_mines)
            (t.resolve_mines t.known_mines) ∨
          (t.resolve_mines t.known_mines).known_safes =
            (t.resolve_mines t.known_mines).cells := by
        rcases hQ t htmem with hp | hsn | hm
        · rcases known_mines_cases t with hX | hX
          · left
            rw [hX, resolve_mines_empty, broadcastMines_empty]
            exact hp
          · left
            apply PureT_of_empty_cells
            rw [hX, resolve_mines_self_cells]
        · have hX : t.known_mines = ∅ := known_mines_of_count_zero hsn.1
          right
          rw [hX, resolve_mines_empty]
          exact known_safes_of_count_zero hsn.1
        · have hX := known_mines_of_TypeM hm
          left
          apply PureT_of_empty_cells
          rw [hX, resolve_mines_self_cells]
      refine ⟨hQ2, fun t' ht' => ?_, fun j hj u' hu' => ?_⟩
      · have hmap : (broadcastSafes (broadcastMines s t.known_mines)
            ((t.resolve_mines t.known_mines).known_safes)).knowledge[i]? =
            some ((t.resolve_mines t.known_mines).resolve_safes
              ((t.resolve_mines t.known_mines).known_safes)) := by
          rw [broadcastSafes_knowledge_get, hget2, Option.map_some']
        rw [hmap] at ht'
        rw [← Option.some.inj ht']
        rcases hkey with hpure | hY
        · exact PureT_broadcastSafes hYk hpure
        · apply PureT_of_empty_cells
          rw [resolve_safes_cells, hY, Finset.sdiff_self]
      · rw [broadcastSafes_knowledge_get] at hu'
        rw [broadcastMines_knowledge_get] at hu'
        cases hu0 : s.knowledge[j]? with
        | none => rw [hu0] at hu'; cases hu'
        | some u =>
            rw [hu0, Option.map_some', Option.map_some'] at hu'
            rw [← Option.some.inj hu']
            exact PureT_broadcastSafes hYk
              (PureT_broadcastMines hXk (hj u hu0))

lemma broadcastOne_knowledge_length (s : MinesweeperAI) (i : Nat) :
    (broadcastOne s i).knowledge.length = s.knowledge.length := by
  cases hget : s.knowledge[i]? with
  | none => rw [broadcastOne_eq_none hget]
  | some t =>
      rw [broadcastOne_eq_some hget]
      show ((s.knowledge.map _).map _).length = _
      simp

lemma foldl_broadcastOne_length (l : List Nat) (s : MinesweeperAI) :
    (l.foldl broadcastOne s).knowledge.length = s.knowledge.length := by
  induction l generalizing s with
  | nil => rfl
  | cons i tl ih =>
      simp only [List.foldl_cons]
      rw [ih (broadcastOne s i), broadcastOne_knowledge_length]

/-- Folding the broadcast scan over a list of indices: `Qinv` is
preserved, and every position that was already pure or is in the scanned
list ends pure. -/
lemma broadcastPhase_fold (l : List Nat) :
    ∀ (s : MinesweeperAI) (done : List Nat), Qinv s →
    (∀ j ∈ done, ∀ u, s.knowledge[j]? = some u → PureT s u) →
    Qinv (l.foldl broadcastOne s) ∧
    ∀ j : Nat, (j ∈ done ∨ j ∈ l) →
      ∀ u, (l.foldl broadcastOne s).knowledge[j]? = some u →
        PureT (l.foldl broadcastOne s) u := by
  induction l with
  | nil =>
      intro s done hQ hdone
      refine ⟨hQ, fun j hj u hu => ?_⟩
      rcases hj with hj | hj
      · exact hdone j hj u hu
      · cases hj
  | cons i tl ih =>
      intro s done hQ hdone
      simp only [List.foldl_cons]
      obtain ⟨hQ1, hi, hpres⟩ := broadcastOne_step s i hQ
      have hdone1 : ∀ j ∈ (i :: done), ∀ u,
          (broadcastOne s i).knowledge[j]? = some u →
            PureT (broadcastOne s i) u := by
        intro j hj u hu
        rcases List.mem_cons.mp hj with rfl | hj'
        · exact hi u hu
        · exact hpres j (hdone j hj') u hu
      obtain ⟨hQ2, hmain⟩ := ih (broadcastOne s i) (i :: done) hQ1 hdone1
      refine ⟨hQ2, fun j hj u hu => ?_⟩
      refine hmain j ?_ u hu
      rcases hj with hj | hj
      · exact Or.inl (List.mem_cons_of_mem i hj)
      · rcases List.mem_cons.mp hj with rfl | hj'
        · exact Or.inl (List.mem_cons_self j done)
        · exact Or.inr hj'

/-- After a full broadcast phase from a `Qinv` state, every held sentence
is pure. -/
lemma broadcastPhase_pure {s : MinesweeperAI} (hQ : Qinv s) :
    pureAll (broadcastPhase s) := by
  intro t ht
  obtain ⟨hQ', hmain⟩ := broadcastPhase_fold (List.range s.knowledge.length) s
    [] hQ (by intro j hj; cases hj)
  obtain ⟨j, hj⟩ := List.getElem?_of_mem ht
  have hlt : j < (broadcastPhase s).knowledge.length := by
    rw [List.getElem?_eq_some_iff] at hj
    exact hj.1
  rw [show broadcastPhase s = (List.range s.knowledge.length).foldl
      broadcastOne s from rfl] at hlt hj
  rw [foldl_broadcastOne_length] at hlt
  exact hmain j (Or.inr (List.mem_range.mpr hlt)) t hj

/-- Newly inferred sentences mention only cells of held (pure) sentences. -/
lemma inferNew_pure {s : MinesweeperAI} (h : pureAll s) :
    ∀ X ∈ inferNew s.knowledge, PureT s X := by
  intro X hX
  obtain ⟨-, s1, hs1, s2, hs2, hsub, rfl⟩ := inferNew_mem hX
  intro c hc
  have hc2 : c ∈ s2.cells := (Finset.mem_sdiff.mp hc).1
  exact h s2 hs2 c hc2

/-- One full closure pass from a `Qinv` state leaves every held sentence
pure. -/
lemma closurePass_pure {s : MinesweeperAI} (hQ : Qinv s) :
    pureAll (closurePass s).1 := by
  rw [closurePass_fst]
  intro t ht
  have hbp : pureAll (broadcastPhase s) := broadcastPhase_pure hQ
  rcases List.mem_append.mp ht with h1 | h1
  · exact hbp t h1
  · exact inferNew_pure hbp t h1

/-- The closure loop from a `Qinv` state returns a state whose sentences
are all pure. -/
lemma runClosure_pure :
    ∀ (fuel : Nat) (s s' : MinesweeperAI), Qinv s →
      runClosure fuel s = some s' → pureAll s' := by
  intro fuel
  induction fuel with
  | zero => intro s s' _ h; cases h
  | succ n ih =>
      intro s s' hQ h
      unfold runClosure at h
      rcases hcp : closurePass s with ⟨t, b⟩
      rw [hcp] at h
      have htp : pureAll t := by
        have := closurePass_pure hQ
        rw [hcp] at this
        exact this
      cases b with
      | true => exact ih t s' (pureAll_Qinv htp) h
      | false => cases h; exact htp

/-! ### The pre-closure phase of `add_knowledge` establishes `Qinv` -/

lemma mark_safe_cells (t : Sentence) (c : Cell) :
    (t.mark_safe c).cells ⊆ t.cells ∧ c ∉ (t.mark_safe c).cells := by
  unfold Sentence.mark_safe
  split_ifs with h
  · exact ⟨Finset.erase_subset c t.cells, Finset.not_mem_erase c t.cells⟩
  · exact ⟨Finset.Subset.refl _, h⟩

lemma mark_mine_cells (t : Sentence) (c : Cell) :
    (t.mark_mine c).cells ⊆ t.cells ∧ c ∉ (t.mark_mine c).cells := by
  unfold Sentence.mark_mine
  split_ifs with h
  · exact ⟨Finset.erase_subset c t.cells, Finset.not_mem_erase c t.cells⟩
  · exact ⟨Finset.Subset.refl _, h⟩

lemma pureAll_mark_safe {s : MinesweeperAI} (h : pureAll s) (c : Cell) :
    pureAll (s.mark_safe c) := by
  intro t' ht'
  obtain ⟨t, ht, rfl⟩ := List.mem_map.mp ht'
  intro x hx
  obtain ⟨hsub, hnc⟩ := mark_safe_cells t c
  obtain ⟨h1, h2⟩ := h t ht x (hsub hx)
  refine ⟨h1, ?_⟩
  show x ∉ insert c s.safes
  rw [Finset.mem_insert]
  rintro (rfl | h3)
  · exact hnc hx
  · exact h2 h3

lemma pureAll_mark_mine {s : MinesweeperAI} (h : pureAll s) (c : Cell) :
    pureAll (s.mark_mine c) := by
  intro t' ht'
  obtain ⟨t, ht, rfl⟩ := List.mem_map.mp ht'
  intro x hx
  obtain ⟨hsub, hnc⟩ := mark_mine_cells t c
  obtain ⟨h1, h2⟩ := h t ht x (hsub hx)
  refine ⟨?_, h2⟩
  show x ∉ insert c s.mines
  rw [Finset.mem_insert]
  rintro (rfl | h3)
  · exact hnc hx
  · exact h1 h3

lemma pureAll_foldl_mark_safe {s : MinesweeperAI} (h : pureAll s)
    (L : List Cell) : pureAll (L.foldl (fun st c => st.mark_safe c) s) := by
  induction L generalizing s with
  | nil => exact h
  | cons c tl ih =>
      simp only [List.foldl_cons]
      exact ih (pureAll_mark_safe h c)

lemma pureAll_foldl_mark_mine {s : MinesweeperAI} (h : pureAll s)
    (L : List Cell) : pureAll (L.foldl (fun st c => st.mark_mine c) s) := by
  induction L generalizing s with
  | nil => exact h
  | cons c tl ih =>
      simp only [List.foldl_cons]
      exact ih (pureAll_mark_mine h c)

lemma foldl_mark_safe_mines (L : List Cell) (s : MinesweeperAI) :
    (L.foldl (fun st c => st.mark_safe c) s).mines = s.mines := by
  induction L generalizing s with
  | nil => rfl
  | cons c tl ih => simp only [List.foldl_cons]; exact ih (s.mark_safe c)

lemma foldl_mark_mine_mines_sub (L : List Cell) (s : MinesweeperAI) :
    s.mines ⊆ (L.foldl (fun st c => st.mark_mine c) s).mines := by
  induction L generalizing s with
  | nil => exact Finset.Subset.refl _
  | cons c tl ih =>
      simp only [List.foldl_cons]
      exact Finset.Subset.trans (Finset.subset_insert c s.mines)
        (ih (s.mark_mine c))

lemma foldl_mark_safe_mem {L : List Cell} {s : MinesweeperAI} :
    ∀ c ∈ L, c ∈ (L.foldl (fun st c => st.mark_safe c) s).safes := by
  induction L generalizing s with
  | nil => intro c hc; cases hc
  | cons a tl ih =>
      intro c hc
      simp only [List.foldl_cons]
      rcases List.mem_cons.mp hc with rfl | hc'
      · exact foldl_mark_safe_safes_sub tl (s.mark_safe c)
          (Finset.mem_insert_self c s.safes)
      · exact ih c hc'

lemma foldl_mark_mine_mem {L : List Cell} {s : MinesweeperAI} :
    ∀ c ∈ L, c ∈ (L.foldl (fun st c => st.mark_mine c) s).mines := by
  induction L generalizing s with
  | nil => intro c hc; cases hc
  | cons a tl ih =>
      intro c hc
      simp only [List.foldl_cons]
      rcases List.mem_cons.mp hc with rfl | hc'
      · exact foldl_mark_mine_mines_sub tl (s.mark_mine c)
          (Finset.mem_insert_self c s.mines)
      · exact ih c hc'

lemma mem_undeterminedNeighbors {s : MinesweeperAI} {cell p : Cell}
    (hp : p ∈ undeterminedNeighbors s cell) :
    inBounds s.height s.width p ∧ p ∉ s.safes ∧ p ∉ s.mines := by
  unfold undeterminedNeighbors at hp
  rw [List.mem_filter] at hp
  exact of_decide_eq_true hp.2

lemma neighborCandidates_nodup (cell : Cell) :
    (neighborCandidates cell).Nodup := by
  rcases cell with ⟨r, c⟩
  simp only [neighborCandidates, List.nodup_cons, List.mem_cons,
    List.mem_singleton, List.not_mem_nil, or_false, List.nodup_nil,
    Prod.mk.injEq, not_or, and_true, true_and, not_false_eq_true]
  omega

lemma undeterminedNeighbors_nodup (s : MinesweeperAI) (cell : Cell) :
    (undeterminedNeighbors s cell).Nodup :=
  (neighborCandidates_nodup cell).filter _

/-- The tail of `add_knowledge_raw` after the safe-broadcast of the observed
cell: the two immediate marking rules and the append, abstracted over the
already-updated state, the neighbour list and the adjusted count. -/
def rawTail (s2 : MinesweeperAI) (L : List Cell) (count' : Int) :
    MinesweeperAI :=
  let s3 := if count' = 0 then L.foldl (fun st c => st.mark_safe c) s2 else s2
  let s4 := if count' = (L.length : Int) ∧ 0 < count' then
      L.foldl (fun st c => st.mark_mine c) s3
    else s3
  { s4 with knowledge := s4.knowledge ++ [⟨L.toFinset, count'⟩] }

lemma add_knowledge_raw_eq_rawTail (s : MinesweeperAI) (cell : Cell)
    (count : Int) :
    add_knowledge_raw s cell count =
      rawTail (MinesweeperAI.mark_safe
          { s with moves_made := insert cell s.moves_made } cell)
        (undeterminedNeighbors (MinesweeperAI.mark_safe
          { s with moves_made := insert cell s.moves_made } cell) cell)
        (count - (knownMineNeighborCount (MinesweeperAI.mark_safe
          { s with moves_made := insert cell s.moves_made } cell) cell : Int)) :=
  rfl

lemma rawTail_Qinv {s2 : MinesweeperAI} {L : List Cell} (count' : Int)
    (hnd : L.Nodup) (h2 : pureAll s2)
    (hL : ∀ p ∈ L, p ∉ s2.safes ∧ p ∉ s2.mines) :
    Qinv (rawTail s2 L count') := by
  simp only [rawTail]
  split_ifs with hcm hc0 hc0
  · exact absurd hcm.2 (by omega)
  · -- count' = |L| > 0: old sentences stay pure, the new sentence is TypeM
    intro t ht
    rcases List.mem_append.mp ht with ht | ht
    · exact Or.inl (pureAll_foldl_mark_mine h2 L t ht)
    · rw [List.mem_singleton] at ht
      subst ht
      refine Or.inr (Or.inr ⟨?_, ?_, fun c hc => ?_⟩)
      · show count' = ((L.toFinset.card : Nat) : Int)
        rw [List.toFinset_card_of_nodup hnd]
        exact hcm.1
      · exact hcm.2
      · rw [List.mem_toFinset] at hc
        refine ⟨foldl_mark_mine_mem c hc, ?_⟩
        rw [foldl_mark_mine_safes]
        exact (hL c hc).1
  · -- count' = 0: old sentences stay pure, the new sentence is TypeS
    intro t ht
    rcases List.mem_append.mp ht with ht | ht
    · exact Or.inl (pureAll_foldl_mark_safe h2 L t ht)
    · rw [List.mem_singleton] at ht
      subst ht
      refine Or.inr (Or.inl ⟨hc0, fun c hc => ?_⟩)
      rw [List.mem_toFinset] at hc
      refine ⟨foldl_mark_safe_mem c hc, ?_⟩
      rw [foldl_mark_safe_mines]
      exact (hL c hc).2
  · -- neither rule fires: every sentence, including the new one, is pure
    intro t ht
    rcases List.mem_append.mp ht with ht | ht
    · exact Or.inl (h2 t ht)
    · rw [List.mem_singleton] at ht
      subst ht
      refine Or.inl fun c hc => ?_
      rw [List.mem_toFinset] at hc
      exact ⟨(hL c hc).2, (hL c hc).1⟩

/-- Starting from an all-pure state, the pre-closure phase of
`add_knowledge` leaves every sentence pure or in a self-clearing shape. -/
lemma add_knowledge_raw_Qinv (s : MinesweeperAI) (cell : Cell) (count : Int)
    (h : pureAll s) : Qinv (add_knowledge_raw s cell count) := by
  rw [add_knowledge_raw_eq_rawTail]
  have h1 : pureAll { s with moves_made := insert cell s.moves_made } := h
  refine rawTail_Qinv _ (undeterminedNeighbors_nodup _ _)
    (pureAll_mark_safe h1 cell) ?_
  intro p hp
  exact ⟨(mem_undeterminedNeighbors hp).2.1, (mem_undeterminedNeighbors hp).2.2⟩

lemma add_knowledge_pure {fuel : Nat} {s s' : MinesweeperAI} {cell : Cell}
    {count : Int} (h : pureAll s)
    (hrun : add_knowledge fuel s cell count = some s') : pureAll s' :=
  runClosure_pure fuel _ s' (add_knowledge_raw_Qinv s cell count h) hrun

lemma initAI_pure (height width : Nat) : pureAll (initAI height width) := by
  intro t ht
  cases ht

lemma runObs_pure :
    ∀ (obs : List (Cell × Int × Nat)) (s s' : MinesweeperAI),
      pureAll s → runObs s obs = some s' → pureAll s' := by
  intro obs
  induction obs with
  | nil =>
      intro s s' h hr
      cases hr
      exact h
  | cons o rest ih =>
      intro s s' h hr
      rcases o with ⟨cell, count, fuel⟩
      unfold runObs at hr
      rcases hk : add_knowledge fuel s cell count with _ | t
      · rw [hk] at hr; cases hr
      · rw [hk] at hr
        exact ih t s' (add_knowledge_pure h hk) hr

/-- C5: after any sequence of `add_knowledge` calls that return (each
closure loop finishing within its fuel), no cell appearing in any held
sentence's `cells` is in the confirmed `mines` or `safes` set: the
broadcasts purge every resolved cell from every sentence, and the closure
loop re-establishes this before exiting. -/
theorem C5_no_confirmed_cell_in_sentences
    (height width : Nat) (obs : List (Cell × Int × Nat))
    (s' : MinesweeperAI)
    (h : runObs (initAI height width) obs = some s') :
    ∀ t ∈ s'.knowledge, ∀ c ∈ t.cells, c ∉ s'.mines ∧ c ∉ s'.safes :=
  fun t ht c hc =>
    runObs_pure obs (initAI height width) s' (initAI_pure height width) h
      t ht c hc

def C5w : MinesweeperAI :=
  ⟨1, 1, {((0 : Int), (0 : Int))}, ∅, {((0 : Int), (0 : Int))}, [⟨∅, 0⟩]⟩

theorem C5_witness :
    runObs (initAI 1 1) [(((0 : Int), (0 : Int)), 0, 1)] = some C5w ∧
      ∀ t ∈ C5w.knowledge, ∀ c ∈ t.cells, c ∉ C5w.mines ∧ c ∉ C5w.safes := by
  have h : runObs (initAI 1 1) [(((0 : Int), (0 : Int)), 0, 1)] = some C5w := by
    decide
  exact ⟨h, C5_no_confirmed_cell_in_sentences 1 1 _ C5w h⟩

/-! ### The bulk broadcasts equal the source's per-cell fold -/

lemma mark_mine_resolve (t : Sentence) (c : Cell) (X : Finset Cell) :
    (t.mark_mine c).resolve_mines X = t.resolve_mines (insert c X) := by
  unfold Sentence.mark_mine Sentence.resolve_mines
  split_ifs with hc
  · have hcells : t.cells.erase c \ X = t.cells \ insert c X := by
      ext x
      simp only [Finset.mem_sdiff, Finset.mem_erase, Finset.mem_insert,
        not_or]
      tauto
    have hset : t.cells ∩ insert c X = insert c (t.cells.erase c ∩ X) := by
      ext x
      by_cases hx : x = c
      · subst hx
        simp [hc]
      · simp only [Finset.mem_inter, Finset.mem_insert, Finset.mem_erase, hx,
          false_or]
        tauto
    have hcard : (t.cells ∩ insert c X).card =
        (t.cells.erase c ∩ X).card + 1 := by
      rw [hset, Finset.card_insert_of_not_mem]
      simp only [Finset.mem_inter, Finset.mem_erase]
      tauto
    simp only [Sentence.mk.injEq]
    exact ⟨hcells, by rw [hcard]; push_cast; ring⟩
  · have hcells : t.cells \ X = t.cells \ insert c X := by
      ext x
      simp only [Finset.mem_sdiff, Finset.mem_insert, not_or]
      constructor
      · rintro ⟨h1, h2⟩
        exact ⟨h1, fun h => hc (h ▸ h1), h2⟩
      · rintro ⟨h1, -, h2⟩
        exact ⟨h1, h2⟩
    have hset : t.cells ∩ insert c X = t.cells ∩ X := by
      ext x
      simp only [Finset.mem_inter, Finset.mem_insert]
      constructor
      · rintro ⟨h1, rfl | h2⟩
        · exact absurd h1 hc
        · exact ⟨h1, h2⟩
      · rintro ⟨h1, h2⟩
        exact ⟨h1, Or.inr h2⟩
    simp only [Sentence.mk.injEq]
    exact ⟨hcells, by rw [hset]⟩

lemma mark_safe_resolve (t : Sentence) (c : Cell) (X : Finset Cell) :
    (t.mark_safe c).resolve_safes X = t.resolve_safes (insert c X) := by
  unfold Sentence.mark_safe Sentence.resolve_safes
  split_ifs with hc
  · have hcells : t.cells.erase c \ X = t.cells \ insert c X := by
      ext x
      simp only [Finset.mem_sdiff, Finset.mem_erase, Finset.mem_insert,
        not_or]
      tauto
    simp only [Sentence.mk.injEq]
    exact ⟨hcells, trivial⟩
  · have hcells : t.cells \ X = t.cells \ insert c X := by
      ext x
      simp only [Finset.mem_sdiff, Finset.mem_insert, not_or]
      constructor
      · rintro ⟨h1, h2⟩
        exact ⟨h1, fun h => hc (h ▸ h1), h2⟩
      · rintro ⟨h1, -, h2⟩
        exact ⟨h1, h2⟩
    simp only [Sentence.mk.injEq]
    exact ⟨hcells, trivial⟩

/-- The source's `for sentence in self.knowledge: sentence.mark_mine(cell)`
run once per cell of a snapshot list equals the order-independent bulk
update `broadcastMines` with the list's set of cells. -/
lemma foldl_mark_mine_eq :
    ∀ (L : List Cell) (s : MinesweeperAI),
      L.foldl (fun st c => st.mark_mine c) s = broadcastMines s L.toFinset := by
  intro L
  induction L with
  | nil =>
      intro s
      symm
      refine AI_ext rfl rfl rfl ?_ rfl ?_
      · show s.mines ∪ ∅ = s.mines
        simp
      · show s.knowledge.map (fun t => t.resolve_mines ∅) = s.knowledge
        simp [resolve_mines_empty]
  | cons c tl ih =>
      intro s
      simp only [List.foldl_cons, List.toFinset_cons]
      rw [ih]
      refine AI_ext rfl rfl rfl ?_ rfl ?_
      · show (insert c s.mines) ∪ tl.toFinset = s.mines ∪ insert c tl.toFinset
        ext x
        simp only [Finset.mem_union, Finset.mem_insert]
        tauto
      · show (s.knowledge.map (fun t => t.mark_mine c)).map
            (fun t => t.resolve_mines tl.toFinset) =
          s.knowledge.map (fun t => t.resolve_mines (insert c tl.toFinset))
        rw [List.map_map]
        exact List.map_congr_left fun t _ => mark_mine_resolve t c tl.toFinset

/-- The per-cell `mark_safe` fold equals the bulk `broadcastSafes`. -/
lemma foldl_mark_safe_eq :
    ∀ (L : List Cell) (s : MinesweeperAI),
      L.foldl (fun st c => st.mark_safe c) s = broadcastSafes s L.toFinset := by
  intro L
  induction L with
  | nil =>
      intro s
      symm
      refine AI_ext rfl rfl rfl rfl ?_ ?_
      · show s.safes ∪ ∅ = s.safes
        simp
      · show s.knowledge.map (fun t => t.resolve_safes ∅) = s.knowledge
        simp [resolve_safes_empty]
  | cons c tl ih =>
      intro s
      simp only [List.foldl_cons, List.toFinset_cons]
      rw [ih]
      refine AI_ext rfl rfl rfl rfl ?_ ?_
      · show (insert c s.safes) ∪ tl.toFinset = s.safes ∪ insert c tl.toFinset
        ext x
        simp only [Finset.mem_union, Finset.mem_insert]
        tauto
      · show (s.knowledge.map (fun t => t.mark_safe c)).map
            (fun t => t.resolve_safes tl.toFinset) =
          s.knowledge.map (fun t => t.resolve_safes (insert c tl.toFinset))
        rw [List.map_map]
        exact List.map_congr_left fun t _ => mark_safe_resolve t c tl.toFinset

/-! ### Disjointness of the confirmed sets (C6) -/

/-- No confirmed mine is also confirmed safe. -/
def Dinv (s : MinesweeperAI) : Prop :=
  ∀ c ∈ s.mines, c ∉ s.safes

lemma Dinv_broadcastMines {s : MinesweeperAI} {X : Finset Cell}
    (hX : ∀ x ∈ X, x ∉ s.safes) (hD : Dinv s) :
    Dinv (broadcastMines s X) := by
  intro c hc
  show c ∉ s.safes
  rcases Finset.mem_union.mp hc with h | h
  · exact hD c h
  · exact hX c h

lemma Dinv_broadcastSafes {s : MinesweeperAI} {X : Finset Cell}
    (hX : ∀ x ∈ X, x ∉ s.mines) (hD : Dinv s) :
    Dinv (broadcastSafes s X) := by
  intro c hc
  have hc' : c ∈ s.mines := hc
  intro hmem
  rcases Finset.mem_union.mp hmem with h | h
  · exact hD c hc' h
  · exact hX c h hc'

lemma Dinv_broadcastOne {s : MinesweeperAI} (i : Nat) (hQ : Qinv s)
    (hD : Dinv s) : Dinv (broadcastOne s i) := by
  cases hget : s.knowledge[i]? with
  | none =>
      rw [broadcastOne_eq_none hget]
      exact hD
  | some t =>
      rw [broadcastOne_eq_some hget]
      have htmem : t ∈ s.knowledge := List.getElem?_mem hget
      have hD1 : Dinv (broadcastMines s t.known_mines) :=
        Dinv_broadcastMines (known_mines_not_safe hQ htmem) hD
      have hQ1 : Qinv (broadcastMines s t.known_mines) :=
        Qinv_broadcastMines (known_mines_not_safe hQ htmem) hQ
      have ht2 : t.resolve_mines t.known_mines ∈
          (broadcastMines s t.known_mines).knowledge := by
        have := broadcastMines_get_some hget t.known_mines
        exact List.getElem?_mem this
      exact Dinv_broadcastSafes (known_safes_not_mine hQ1 ht2) hD1

lemma Dinv_broadcastOne_fold (l : List Nat) :
    ∀ s : MinesweeperAI, Qinv s → Dinv s →
      Qinv (l.foldl broadcastOne s) ∧ Dinv (l.foldl broadcastOne s) := by
  induction l with
  | nil => intro s hQ hD; exact ⟨hQ, hD⟩
  | cons i tl ih =>
      intro s hQ hD
      simp only [List.foldl_cons]
      exact ih (broadcastOne s i) (broadcastOne_step s i hQ).1
        (Dinv_broadcastOne i hQ hD)

lemma Dinv_closurePass {s : MinesweeperAI} (hQ : Qinv s) (hD : Dinv s) :
    Dinv (closurePass s).1 := by
  rw [closurePass_fst]
  have h := Dinv_broadcastOne_fold (List.range s.knowledge.length) s hQ hD
  exact h.2

lemma Dinv_runClosure :
    ∀ (fuel : Nat) (s s' : MinesweeperAI), Qinv s → Dinv s →
      runClosure fuel s = some s' → Dinv s' := by
  intro fuel
  induction fuel with
  | zero => intro s s' _ _ h; cases h
  | succ n ih =>
      intro s s' hQ hD h
      unfold runClosure at h
      rcases hcp : closurePass s with ⟨t, b⟩
      rw [hcp] at h
      have htp : pureAll t := by
        have := closurePass_pure hQ
        rw [hcp] at this
        exact this
      have htD : Dinv t := by
        have := Dinv_closurePass hQ hD
        rw [hcp] at this
        exact this
      cases b with
      | true => exact ih t s' (pureAll_Qinv htp) htD h
      | false => cases h; exact htD

lemma Dinv_mark_safe {s : MinesweeperAI} (hD : Dinv s) {cell : Cell}
    (hc : cell ∉ s.mines) : Dinv (s.mark_safe cell) := by
  intro c hcm
  have hcm' : c ∈ s.mines := hcm
  show c ∉ insert cell s.safes
  rw [Finset.mem_insert]
  rintro (rfl | h)
  · exact hc hcm'
  · exact hD c hcm' h

lemma rawTail_Dinv {s2 : MinesweeperAI} {L : List Cell} (count' : Int)
    (hD : Dinv s2) (hL : ∀ p ∈ L, p ∉ s2.safes ∧ p ∉ s2.mines) :
    Dinv (rawTail s2 L count') := by
  simp only [rawTail]
  split_ifs with hcm hc0 hc0
  · exact absurd hcm.2 (by omega)
  · -- the mine rule fires (the safe rule cannot: count' > 0)
    show Dinv (L.foldl (fun st c => st.mark_mine c) s2)
    rw [foldl_mark_mine_eq]
    refine Dinv_broadcastMines ?_ hD
    intro x hx
    exact (hL x (List.mem_toFinset.mp hx)).1
  · -- the safe rule fires
    show Dinv (L.foldl (fun st c => st.mark_safe c) s2)
    rw [foldl_mark_safe_eq]
    refine Dinv_broadcastSafes ?_ hD
    intro x hx
    exact (hL x (List.mem_toFinset.mp hx)).2
  · exact hD

lemma add_knowledge_raw_Dinv (s : MinesweeperAI) (cell : Cell) (count : Int)
    (hD : Dinv s) (hc : cell ∉ s.mines) :
    Dinv (add_knowledge_raw s cell count) := by
  rw [add_knowledge_raw_eq_rawTail]
  have hD1 : Dinv { s with moves_made := insert cell s.moves_made } := hD
  refine rawTail_Dinv _ (Dinv_mark_safe hD1 hc) ?_
  intro p hp
  exact ⟨(mem_undeterminedNeighbors hp).2.1, (mem_undeterminedNeighbors hp).2.2⟩

lemma add_knowledge_Dinv {fuel : Nat} {s s' : MinesweeperAI} {cell : Cell}
    {count : Int} (hp : pureAll s) (hD : Dinv s) (hc : cell ∉ s.mines)
    (hrun : add_knowledge fuel s cell count = some s') : Dinv s' :=
  Dinv_runClosure fuel _ s' (add_knowledge_raw_Qinv s cell count hp)
    (add_knowledge_raw_Dinv s cell count hD hc) hrun

/-- Each observed cell is not a confirmed mine at the moment of its
`add_knowledge` call. -/
def obsOK : MinesweeperAI → List (Cell × Int × Nat) → Prop
  | _, [] => True
  | s, (cell, count, fuel) :: rest =>
      cell ∉ s.mines ∧
        ∀ t, add_knowledge fuel s cell count = some t → obsOK t rest

lemma runObs_Dinv :
    ∀ (obs : List (Cell × Int × Nat)) (s s' : MinesweeperAI),
      pureAll s → Dinv s → obsOK s obs → runObs s obs = some s' →
      Dinv s' := by
  intro obs
  induction obs with
  | nil =>
      intro s s' _ hD _ hr
      cases hr
      exact hD
  | cons o rest ih =>
      intro s s' hp hD hok hr
      rcases o with ⟨cell, count, fuel⟩
      unfold runObs at hr
      rcases hk : add_knowledge fuel s cell count with _ | t
      · rw [hk] at hr; cases hr
      · rw [hk] at hr
        exact ih t s' (add_knowledge_pure hp hk)
          (add_knowledge_Dinv hp hD hok.1 hk) (hok.2 t hk) hr

/-- C6 (amended): after any sequence of `add_knowledge` calls that return,
the confirmed `mines` and `safes` sets are disjoint, provided no observed
cell was already a confirmed mine when it was observed (`add_knowledge`
marks the observed cell safe unconditionally, so without that proviso a
cell can land in both sets). -/
theorem C6_amended (height width : Nat) (obs : List (Cell × Int × Nat))
    (s' : MinesweeperAI) (hok : obsOK (initAI height width) obs)
    (h : runObs (initAI height width) obs = some s') :
    ∀ c ∈ s'.mines, c ∉ s'.safes :=
  runObs_Dinv obs (initAI height width) s' (initAI_pure height width)
    (fun c hc => absurd hc (Finset.not_mem_empty c)) hok h

def C6wit : MinesweeperAI :=
  ⟨1, 1, {((0 : Int), (0 : Int))}, ∅, {((0 : Int), (0 : Int))}, [⟨∅, 0⟩]⟩

theorem C6_amended_witness :
    obsOK (initAI 1 1) [(((0 : Int), (0 : Int)), 0, 1)] ∧
      runObs (initAI 1 1) [(((0 : Int), (0 : Int)), 0, 1)] = some C6wit ∧
      ∀ c ∈ C6wit.mines, c ∉ C6wit.safes := by
  have hok : obsOK (initAI 1 1) [(((0 : Int), (0 : Int)), 0, 1)] :=
    ⟨by decide, fun t _ => trivial⟩
  have h : runObs (initAI 1 1) [(((0 : Int), (0 : Int)), 0, 1)] =
      some C6wit := by decide
  exact ⟨hok, h, C6_amended 1 1 _ C6wit hok h⟩

/-! ### C4: the chained subset inference `{A,B}=1`, `{A,B,C}=2` ⊢ C mined -/

lemma known_mines_of_count_ne_card {t : Sentence}
    (h : t.count ≠ (t.cells.card : Int)) : t.known_mines = ∅ := by
  unfold Sentence.known_mines
  rw [if_neg]
  rintro ⟨h1, -⟩
  exact h h1

lemma known_safes_of_count_ne_zero {t : Sentence} (h : t.count ≠ 0) :
    t.known_safes = ∅ := by
  unfold Sentence.known_safes
  rw [if_neg h]

lemma known_mines_of_full {t : Sentence} (h1 : t.count = (t.cells.card : Int))
    (h2 : t.count ≠ 0) : t.known_mines = t.cells := by
  unfold Sentence.known_mines
  rw [if_pos ⟨h1, h2⟩]

lemma broadcastOne_no_fire {s : MinesweeperAI} {i : Nat} {t : Sentence}
    (hget : s.knowledge[i]? = some t) (hm : t.known_mines = ∅)
    (hs : t.known_safes = ∅) : broadcastOne s i = s := by
  rw [broadcastOne_eq_some hget, hm, broadcastMines_empty,
    resolve_mines_empty, hs, broadcastSafes_empty]

lemma resolve_mines_of_disjoint {t : Sentence} {X : Finset Cell}
    (h : ∀ x ∈ X, x ∉ t.cells) : t.resolve_mines X = t := by
  obtain ⟨cs, cnt⟩ := t
  unfold Sentence.resolve_mines
  have h1 : cs \ X = cs := by
    ext x
    simp only [Finset.mem_sdiff]
    constructor
    · exact And.left
    · intro hx
      exact ⟨hx, fun hX => h x hX hx⟩
  have h2 : cs ∩ X = ∅ := by
    ext x
    simp only [Finset.mem_inter, Finset.not_mem_empty, iff_false]
    rintro ⟨h3, h4⟩
    exact h x h4 h3
  simp only at h1 h2
  simp [h1, h2]

lemma runClosure_succ_true {s t : MinesweeperAI}
    (h : closurePass s = (t, true)) (m : Nat) :
    runClosure (m + 1) s = runClosure m t := by
  show (match closurePass s with
        | (t, true) => runClosure m t
        | (t, false) => some t) = runClosure m t
  rw [h]

lemma runClosure_succ_false {s t : MinesweeperAI}
    (h : closurePass s = (t, false)) (m : Nat) :
    runClosure (m + 1) s = some t := by
  show (match closurePass s with
        | (t, true) => runClosure m t
        | (t, false) => some t) = some t
  rw [h]

lemma C4_pass1 (A B C : Cell) (hAB : A ≠ B) (hAC : A ≠ C) (hBC : B ≠ C)
    (h w : Nat) (mm mi sa : Finset Cell) :
    closurePass ⟨h, w, mm, mi, sa,
        [⟨{A, B}, 1⟩, ⟨{A, B, C}, 2⟩]⟩ =
      (⟨h, w, mm, mi, sa,
        [⟨{A, B}, 1⟩, ⟨{A, B, C}, 2⟩, ⟨{C}, 1⟩]⟩, true) := by
  have hcard2 : ({A, B} : Finset Cell).card = 2 := by
    rw [Finset.card_insert_of_not_mem (by simp [hAB]), Finset.card_singleton]
  have hcard3 : ({A, B, C} : Finset Cell).card = 3 := by
    rw [Finset.card_insert_of_not_mem (by simp [hAB, hAC]),
      Finset.card_insert_of_not_mem (by simp [hBC]), Finset.card_singleton]
  have hm1 : (⟨{A, B}, 1⟩ : Sentence).known_mines = ∅ := by
    refine known_mines_of_count_ne_card ?_
    show (1 : Int) ≠ (({A, B} : Finset Cell).card : Int)
    rw [hcard2]
    norm_num
  have hs1 : (⟨{A, B}, 1⟩ : Sentence).known_safes = ∅ :=
    known_safes_of_count_ne_zero (by norm_num)
  have hm2 : (⟨{A, B, C}, 2⟩ : Sentence).known_mines = ∅ := by
    refine known_mines_of_count_ne_card ?_
    show (2 : Int) ≠ (({A, B, C} : Finset Cell).card : Int)
    rw [hcard3]
    norm_num
  have hs2 : (⟨{A, B, C}, 2⟩ : Sentence).known_safes = ∅ :=
    known_safes_of_count_ne_zero (by norm_num)
  have hbp : broadcastPhase ⟨h, w, mm, mi, sa,
      [⟨{A, B}, 1⟩, ⟨{A, B, C}, 2⟩]⟩ =
      ⟨h, w, mm, mi, sa, [⟨{A, B}, 1⟩, ⟨{A, B, C}, 2⟩]⟩ := by
    show (List.range 2).foldl broadcastOne _ = _
    rw [show List.range 2 = [0, 1] from by decide]
    simp only [List.foldl_cons, List.foldl_nil]
    have hb0 : broadcastOne ⟨h, w, mm, mi, sa,
        [⟨{A, B}, 1⟩, ⟨{A, B, C}, 2⟩]⟩ 0 =
        ⟨h, w, mm, mi, sa, [⟨{A, B}, 1⟩, ⟨{A, B, C}, 2⟩]⟩ :=
      broadcastOne_no_fire rfl hm1 hs1
    have hb1 : broadcastOne ⟨h, w, mm, mi, sa,
        [⟨{A, B}, 1⟩, ⟨{A, B, C}, 2⟩]⟩ 1 =
        ⟨h, w, mm, mi, sa, [⟨{A, B}, 1⟩, ⟨{A, B, C}, 2⟩]⟩ :=
      broadcastOne_no_fire rfl hm2 hs2
    rw [hb0, hb1]
  have hne12 : (⟨{A, B}, 1⟩ : Sentence) ≠ ⟨{A, B, C}, 2⟩ := by
    intro hcon
    have := congrArg Sentence.count hcon
    norm_num at this
  have hsub12 : ({A, B} : Finset Cell) ⊆ {A, B, C} := by
    intro x hx
    simp only [Finset.mem_insert, Finset.mem_singleton] at hx ⊢
    tauto
  have hnsub21 : ¬ ({A, B, C} : Finset Cell) ⊆ {A, B} := by
    intro hsub
    have := hsub (show C ∈ ({A, B, C} : Finset Cell) by simp)
    simp only [Finset.mem_insert, Finset.mem_singleton] at this
    rcases this with h' | h'
    · exact hAC h'.symm
    · exact hBC h'.symm
  have hdiff : inferred ⟨{A, B}, 1⟩ ⟨{A, B, C}, 2⟩ = ⟨{C}, 1⟩ := by
    unfold inferred
    simp only [Sentence.mk.injEq]
    constructor
    · ext x
      simp only [Finset.mem_sdiff, Finset.mem_insert, Finset.mem_singleton,
        not_or]
      constructor
      · rintro ⟨h1 | h1 | h1, h2, h3⟩
        · exact absurd h1 h2
        · exact absurd h1 h3
        · exact h1
      · rintro rfl
        exact ⟨Or.inr (Or.inr rfl), fun h' => hAC h'.symm,
          fun h' => hBC h'.symm⟩
    · norm_num
  have hnotin : (⟨{C}, 1⟩ : Sentence) ∉
      [(⟨{A, B}, 1⟩ : Sentence), ⟨{A, B, C}, 2⟩] := by
    intro hmem
    rcases List.mem_cons.mp hmem with h' | h'
    · have := congrArg (fun t => Finset.card (Sentence.cells t)) h'
      simp only [Finset.card_singleton] at this
      rw [hcard2] at this
      norm_num at this
    · rw [List.mem_singleton] at h'
      have := congrArg Sentence.count h'
      norm_num at this
  have hinf : inferNew [(⟨{A, B}, 1⟩ : Sentence), ⟨{A, B, C}, 2⟩] =
      [⟨{C}, 1⟩] := by
    unfold inferNew
    simp only [List.foldl_cons, List.foldl_nil]
    have e1 : inferStep [(⟨{A, B}, 1⟩ : Sentence), ⟨{A, B, C}, 2⟩]
        ⟨{A, B}, 1⟩ [] ⟨{A, B}, 1⟩ = [] := by
      unfold inferStep
      rw [if_neg (fun hcon => hcon.1 rfl)]
    have e2 : inferStep [(⟨{A, B}, 1⟩ : Sentence), ⟨{A, B, C}, 2⟩]
        ⟨{A, B}, 1⟩ [] ⟨{A, B, C}, 2⟩ = [⟨{C}, 1⟩] := by
      unfold inferStep
      rw [if_pos ⟨hne12, hsub12⟩, hdiff,
        if_pos ⟨hnotin, List.not_mem_nil _⟩]
      rfl
    have e3 : inferStep [(⟨{A, B}, 1⟩ : Sentence), ⟨{A, B, C}, 2⟩]
        ⟨{A, B, C}, 2⟩ [⟨{C}, 1⟩] ⟨{A, B}, 1⟩ = [⟨{C}, 1⟩] := by
      unfold inferStep
      rw [if_neg (fun hcon => hnsub21 hcon.2)]
    have e4 : inferStep [(⟨{A, B}, 1⟩ : Sentence), ⟨{A, B, C}, 2⟩]
        ⟨{A, B, C}, 2⟩ [⟨{C}, 1⟩] ⟨{A, B, C}, 2⟩ = [⟨{C}, 1⟩] := by
      unfold inferStep
      rw [if_neg (fun hcon => hcon.1 rfl)]
    rw [e1, e2, e3, e4]
  show ({ broadcastPhase ⟨h, w, mm, mi, sa,
        [⟨{A, B}, 1⟩, ⟨{A, B, C}, 2⟩]⟩ with
      knowledge := (broadcastPhase ⟨h, w, mm, mi, sa,
        [⟨{A, B}, 1⟩, ⟨{A, B, C}, 2⟩]⟩).knowledge ++
        inferNew (broadcastPhase ⟨h, w, mm, mi, sa,
          [⟨{A, B}, 1⟩, ⟨{A, B, C}, 2⟩]⟩).knowledge },
    !(inferNew (broadcastPhase ⟨h, w, mm, mi, sa,
        [⟨{A, B}, 1⟩, ⟨{A, B, C}, 2⟩]⟩).knowledge).isEmpty) = _
  rw [hbp]
  show ((⟨h, w, mm, mi, sa, [⟨{A, B}, 1⟩, ⟨{A, B, C}, 2⟩] ++
      inferNew [⟨{A, B}, 1⟩, ⟨{A, B, C}, 2⟩]⟩ : MinesweeperAI),
    !(inferNew [(⟨{A, B}, 1⟩ : Sentence), ⟨{A, B, C}, 2⟩]).isEmpty) = _
  rw [hinf]
  rfl

lemma C4_pass2 (A B C : Cell) (hAB : A ≠ B) (hAC : A ≠ C) (hBC : B ≠ C)
    (h w : Nat) (mm mi sa : Finset Cell) :
    closurePass ⟨h, w, mm, mi, sa,
        [⟨{A, B}, 1⟩, ⟨{A, B, C}, 2⟩, ⟨{C}, 1⟩]⟩ =
      (⟨h, w, mm, mi ∪ {C}, sa,
        [⟨{A, B}, 1⟩, ⟨{A, B}, 1⟩, ⟨∅, 0⟩]⟩, false) := by
  have hcard2 : ({A, B} : Finset Cell).card = 2 := by
    rw [Finset.card_insert_of_not_mem (by simp [hAB]), Finset.card_singleton]
  have hcard3 : ({A, B, C} : Finset Cell).card = 3 := by
    rw [Finset.card_insert_of_not_mem (by simp [hAB, hAC]),
      Finset.card_insert_of_not_mem (by simp [hBC]), Finset.card_singleton]
  have hm1 : (⟨{A, B}, 1⟩ : Sentence).known_mines = ∅ := by
    refine known_mines_of_count_ne_card ?_
    show (1 : Int) ≠ (({A, B} : Finset Cell).card : Int)
    rw [hcard2]
    norm_num
  have hs1 : (⟨{A, B}, 1⟩ : Sentence).known_safes = ∅ :=
    known_safes_of_count_ne_zero (by norm_num)
  have hm2 : (⟨{A, B, C}, 2⟩ : Sentence).known_mines = ∅ := by
    refine known_mines_of_count_ne_card ?_
    show (2 : Int) ≠ (({A, B, C} : Finset Cell).card : Int)
    rw [hcard3]
    norm_num
  have hs2 : (⟨{A, B, C}, 2⟩ : Sentence).known_safes = ∅ :=
    known_safes_of_count_ne_zero (by norm_num)
  have hkm3 : (⟨{C}, 1⟩ : Sentence).known_mines = {C} := by
    refine known_mines_of_full ?_ (by norm_num)
    show (1 : Int) = (({C} : Finset Cell).card : Int)
    rw [Finset.card_singleton]
    norm_num
  have hres3 : (⟨{C}, 1⟩ : Sentence).resolve_mines {C} = ⟨∅, 0⟩ := by
    unfold Sentence.resolve_mines
    simp
  have hres1C : (⟨{A, B}, 1⟩ : Sentence).resolve_mines {C} = ⟨{A, B}, 1⟩ := by
    refine resolve_mines_of_disjoint ?_
    intro x hx
    rw [Finset.mem_singleton] at hx
    subst hx
    simp only [Finset.mem_insert, Finset.mem_singleton, not_or]
    exact ⟨fun h' => hAC h'.symm, fun h' => hBC h'.symm⟩
  have hres2C : (⟨{A, B, C}, 2⟩ : Sentence).resolve_mines {C} =
      ⟨{A, B}, 1⟩ := by
    unfold Sentence.resolve_mines
    simp only [Sentence.mk.injEq]
    constructor
    · ext x
      simp only [Finset.mem_sdiff, Finset.mem_insert, Finset.mem_singleton]
      constructor
      · rintro ⟨h1 | h1 | h1, h2⟩
        · exact Or.inl h1
        · exact Or.inr h1
        · exact absurd h1 h2
      · rintro (rfl | rfl)
        · exact ⟨Or.inl rfl, hAC⟩
        · exact ⟨Or.inr (Or.inl rfl), hBC⟩
    · have hint : ({A, B, C} : Finset Cell) ∩ {C} = {C} := by
        ext x
        simp only [Finset.mem_inter, Finset.mem_insert, Finset.mem_singleton]
        constructor
        · exact And.right
        · rintro rfl
          exact ⟨Or.inr (Or.inr rfl), rfl⟩
      rw [hint, Finset.card_singleton]
      norm_num
  have hbp : broadcastPhase ⟨h, w, mm, mi, sa,
      [⟨{A, B}, 1⟩, ⟨{A, B, C}, 2⟩, ⟨{C}, 1⟩]⟩ =
      ⟨h, w, mm, mi ∪ {C}, sa, [⟨{A, B}, 1⟩, ⟨{A, B}, 1⟩, ⟨∅, 0⟩]⟩ := by
    show (List.range 3).foldl broadcastOne _ = _
    rw [show List.range 3 = [0, 1, 2] from by decide]
    simp only [List.foldl_cons, List.foldl_nil]
    have hb0 : broadcastOne ⟨h, w, mm, mi, sa,
        [⟨{A, B}, 1⟩, ⟨{A, B, C}, 2⟩, ⟨{C}, 1⟩]⟩ 0 =
        ⟨h, w, mm, mi, sa, [⟨{A, B}, 1⟩, ⟨{A, B, C}, 2⟩, ⟨{C}, 1⟩]⟩ :=
      broadcastOne_no_fire rfl hm1 hs1
    have hb1 : broadcastOne ⟨h, w, mm, mi, sa,
        [⟨{A, B}, 1⟩, ⟨{A, B, C}, 2⟩, ⟨{C}, 1⟩]⟩ 1 =
        ⟨h, w, mm, mi, sa, [⟨{A, B}, 1⟩, ⟨{A, B, C}, 2⟩, ⟨{C}, 1⟩]⟩ :=
      broadcastOne_no_fire rfl hm2 hs2
    have hb2 : broadcastOne ⟨h, w, mm, mi, sa,
        [⟨{A, B}, 1⟩, ⟨{A, B, C}, 2⟩, ⟨{C}, 1⟩]⟩ 2 =
        ⟨h, w, mm, mi ∪ {C}, sa, [⟨{A, B}, 1⟩, ⟨{A, B}, 1⟩, ⟨∅, 0⟩]⟩ := by
      rw [broadcastOne_eq_some (show (⟨h, w, mm, mi, sa,
        [⟨{A, B}, 1⟩, ⟨{A, B, C}, 2⟩, ⟨{C}, 1⟩]⟩ :
          MinesweeperAI).knowledge[2]? = some ⟨{C}, 1⟩ from rfl), hkm3, hres3]
      rw [show (⟨∅, 0⟩ : Sentence).known_safes = ∅ from
        known_safes_of_count_zero rfl, broadcastSafes_empty]
      unfold broadcastMines
      simp only [List.map_cons, List.map_nil]
      rw [hres1C, hres2C, hres3]
    rw [hb0, hb1, hb2]
  have hnevu : (⟨∅, 0⟩ : Sentence) ≠ ⟨{A, B}, 1⟩ := by
    intro hcon
    have := congrArg Sentence.count hcon
    norm_num at this
  have hinfvu : inferred ⟨∅, 0⟩ ⟨{A, B}, 1⟩ = ⟨{A, B}, 1⟩ := by
    unfold inferred
    simp [Sentence.mk.injEq]
  have hinf : inferNew [(⟨{A, B}, 1⟩ : Sentence), ⟨{A, B}, 1⟩, ⟨∅, 0⟩] =
      [] := by
    have f1 : ∀ acc, inferStep
        [(⟨{A, B}, 1⟩ : Sentence), ⟨{A, B}, 1⟩, ⟨∅, 0⟩] ⟨{A, B}, 1⟩ acc
        ⟨{A, B}, 1⟩ = acc := by
      intro acc
      unfold inferStep
      rw [if_neg (fun hcon => hcon.1 rfl)]
    have f2 : ∀ acc, inferStep
        [(⟨{A, B}, 1⟩ : Sentence), ⟨{A, B}, 1⟩, ⟨∅, 0⟩] ⟨{A, B}, 1⟩ acc
        ⟨∅, 0⟩ = acc := by
      intro acc
      unfold inferStep
      rw [if_neg]
      rintro ⟨-, hsub⟩
      exact absurd (hsub (Finset.mem_insert_self A {B}))
        (Finset.not_mem_empty A)
    have f3 : inferStep
        [(⟨{A, B}, 1⟩ : Sentence), ⟨{A, B}, 1⟩, ⟨∅, 0⟩] ⟨∅, 0⟩ []
        ⟨{A, B}, 1⟩ = [] := by
      unfold inferStep
      rw [if_pos ⟨hnevu, Finset.empty_subset _⟩, hinfvu,
        if_neg (fun hcon => hcon.1 (List.mem_cons_self _ _))]
    have f4 : ∀ acc, inferStep
        [(⟨{A, B}, 1⟩ : Sentence), ⟨{A, B}, 1⟩, ⟨∅, 0⟩] ⟨∅, 0⟩ acc
        ⟨∅, 0⟩ = acc := by
      intro acc
      unfold inferStep
      rw [if_neg (fun hcon => hcon.1 rfl)]
    unfold inferNew
    simp only [List.foldl_cons, List.foldl_nil, f1, f2, f4, f3]
  show ({ broadcastPhase ⟨h, w, mm, mi, sa,
        [⟨{A, B}, 1⟩, ⟨{A, B, C}, 2⟩, ⟨{C}, 1⟩]⟩ with
      knowledge := (broadcastPhase ⟨h, w, mm, mi, sa,
        [⟨{A, B}, 1⟩, ⟨{A, B, C}, 2⟩, ⟨{C}, 1⟩]⟩).knowledge ++
        inferNew (broadcastPhase ⟨h, w, mm, mi, sa,
          [⟨{A, B}, 1⟩, ⟨{A, B, C}, 2⟩, ⟨{C}, 1⟩]⟩).knowledge },
    !(inferNew (broadcastPhase ⟨h, w, mm, mi, sa,
        [⟨{A, B}, 1⟩, ⟨{A, B, C}, 2⟩, ⟨{C}, 1⟩]⟩).knowledge).isEmpty) = _
  rw [hbp]
  show ((⟨h, w, mm, mi ∪ {C}, sa,
      [⟨{A, B}, 1⟩, ⟨{A, B}, 1⟩, ⟨∅, 0⟩] ++
        inferNew [⟨{A, B}, 1⟩, ⟨{A, B}, 1⟩, ⟨∅, 0⟩]⟩ : MinesweeperAI),
    !(inferNew [(⟨{A, B}, 1⟩ : Sentence), ⟨{A, B}, 1⟩, ⟨∅, 0⟩]).isEmpty) = _
  rw [hinf]
  rfl

/-- C4: from a knowledge base holding exactly the sentences `{A,B} = 1`
and `{A,B,C} = 2` (cells distinct, all other engine fields arbitrary), the
closure loop terminates — pass one queues the subset-rule difference
`{C} = 1`, pass two broadcasts it and makes no further inference — and
cell `C` ends up in the confirmed `mines` set. -/
theorem C4_subset_rule_confirms_mine (A B C : Cell) (hAB : A ≠ B)
    (hAC : A ≠ C) (hBC : B ≠ C) (h w : Nat) (mm mi sa : Finset Cell)
    (fuel : Nat) (hf : 2 ≤ fuel) :
    ∃ s' : MinesweeperAI,
      runClosure fuel ⟨h, w, mm, mi, sa,
          [⟨{A, B}, 1⟩, ⟨{A, B, C}, 2⟩]⟩ = some s' ∧
        C ∈ s'.mines := by
  obtain ⟨n, rfl⟩ : ∃ n, fuel = n + 2 := ⟨fuel - 2, by omega⟩
  refine ⟨⟨h, w, mm, mi ∪ {C}, sa,
    [⟨{A, B}, 1⟩, ⟨{A, B}, 1⟩, ⟨∅, 0⟩]⟩, ?_, ?_⟩
  · rw [show n + 2 = (n + 1) + 1 from rfl,
      runClosure_succ_true (C4_pass1 A B C hAB hAC hBC h w mm mi sa) (n + 1),
      runClosure_succ_false (C4_pass2 A B C hAB hAC hBC h w mm mi sa) n]
  · exact Finset.mem_union_right mi (Finset.mem_singleton_self C)

theorem C4_witness :
    ((0 : Int), (0 : Int)) ≠ ((0 : Int), (1 : Int)) ∧
    ((0 : Int), (0 : Int)) ≠ ((0 : Int), (2 : Int)) ∧
    ((0 : Int), (1 : Int)) ≠ ((0 : Int), (2 : Int)) ∧
    2 ≤ 2 ∧
    ∃ s' : MinesweeperAI,
      runClosure 2 ⟨3, 3, ∅, ∅, ∅,
          [⟨{((0 : Int), (0 : Int)), ((0 : Int), (1 : Int))}, 1⟩,
           ⟨{((0 : Int), (0 : Int)), ((0 : Int), (1 : Int)),
             ((0 : Int), (2 : Int))}, 2⟩]⟩ = some s' ∧
        ((0 : Int), (2 : Int)) ∈ s'.mines :=
  ⟨by decide, by decide, by decide, by decide,
    C4_subset_rule_confirms_mine ((0 : Int), (0 : Int))
      ((0 : Int), (1 : Int)) ((0 : Int), (2 : Int)) (by decide) (by decide)
      (by decide) 3 3 ∅ ∅ ∅ 2 (by decide)⟩

/-! ### Termination of the closure loop from sound states (C2) -/

/-- Every held sentence is sound for the mine placement `M`. -/
def SoundAll (M : Finset Cell) (s : MinesweeperAI) : Prop :=
  ∀ t ∈ s.knowledge, Sound M t

/-- Every held sentence mentions only cells of the universe `U`. -/
def cellsBound (U : Finset Cell) (s : MinesweeperAI) : Prop :=
  ∀ t ∈ s.knowledge, t.cells ⊆ U

/-- How many cells of `U` are already confirmed (mine or safe). -/
def confCard (U : Finset Cell) (s : MinesweeperAI) : Nat :=
  ((s.mines ∪ s.safes) ∩ U).card

/-- How many distinct sentences the knowledge list holds. -/
def distinctCard (s : MinesweeperAI) : Nat :=
  s.knowledge.toFinset.card

/-- Each continuing closure pass either confirms a fresh cell of `U` or
grows the set of distinct held sentences, which soundness keeps inside
`U`'s powerset; this quantity therefore drops every continuing pass. -/
def closureMeasure (U : Finset Cell) (s : MinesweeperAI) : Nat :=
  (U.card - confCard U s) * (2 ^ U.card + 1) +
    (2 ^ U.card - distinctCard s)

lemma Sound_iff_inter {M : Finset Cell} {t : Sentence} :
    Sound M t ↔ t.count = ((t.cells ∩ M).card : Int) := by
  unfold Sound
  rw [show t.cells.filter (fun c => c ∈ M) = t.cells ∩ M from
    Finset.filter_mem_eq_inter]

lemma Sound_resolve_mines {M X : Finset Cell} {t : Sentence} (hXM : X ⊆ M)
    (h : Sound M t) : Sound M (t.resolve_mines X) := by
  rw [Sound_iff_inter] at h ⊢
  show t.count - ((t.cells ∩ X).card : Int) =
    (((t.cells \ X) ∩ M).card : Int)
  have h1 : (t.cells \ X) ∩ M = (t.cells ∩ M) \ (t.cells ∩ X) := by
    ext x
    simp only [Finset.mem_sdiff, Finset.mem_inter, not_and]
    constructor
    · rintro ⟨⟨hx, hnX⟩, hM⟩
      exact ⟨⟨hx, hM⟩, fun _ hxX => hnX hxX⟩
    · rintro ⟨⟨hx, hM⟩, hn⟩
      exact ⟨⟨hx, fun hxX => hn hx hxX⟩, hM⟩
  have h2 : t.cells ∩ X ⊆ t.cells ∩ M :=
    Finset.inter_subset_inter (Finset.Subset.refl _) hXM
  rw [h1, Finset.card_sdiff h2, Nat.cast_sub (Finset.card_le_card h2), h]

lemma Sound_resolve_safes {M X : Finset Cell} {t : Sentence}
    (hXM : ∀ x ∈ X, x ∉ M) (h : Sound M t) :
    Sound M (t.resolve_safes X) := by
  rw [Sound_iff_inter] at h ⊢
  show t.count = (((t.cells \ X) ∩ M).card : Int)
  have h1 : (t.cells \ X) ∩ M = t.cells ∩ M := by
    ext x
    simp only [Finset.mem_sdiff, Finset.mem_inter]
    constructor
    · rintro ⟨⟨hx, -⟩, hM⟩
      exact ⟨hx, hM⟩
    · rintro ⟨hx, hM⟩
      exact ⟨⟨hx, fun hX => hXM x hX hM⟩, hM⟩
  rw [h1]
  exact h

lemma known_mines_sub_M {M : Finset Cell} {t : Sentence} (h : Sound M t) :
    t.known_mines ⊆ M := by
  unfold Sentence.known_mines
  split_ifs with hc
  · rw [Sound_iff_inter] at h
    have hcards : (t.cells ∩ M).card = t.cells.card := by
      have := hc.1.symm.trans h
      exact_mod_cast this.symm
    have heq : t.cells ∩ M = t.cells :=
      Finset.eq_of_subset_of_card_le Finset.inter_subset_left
        (by omega)
    intro x hx
    have : x ∈ t.cells ∩ M := heq.symm ▸ hx
    exact (Finset.mem_inter.mp this).2
  · exact Finset.empty_subset _

lemma known_safes_disj_M {M : Finset Cell} {t : Sentence} (h : Sound M t) :
    ∀ x ∈ t.known_safes, x ∉ M := by
  unfold Sentence.known_safes
  split_ifs with hc
  · rw [Sound_iff_inter] at h
    rw [hc] at h
    have hcard : (t.cells ∩ M).card = 0 := by exact_mod_cast h.symm
    have hempty : t.cells ∩ M = ∅ := Finset.card_eq_zero.mp hcard
    intro x hx hxM
    have : x ∈ t.cells ∩ M := Finset.mem_inter.mpr ⟨hx, hxM⟩
    rw [hempty] at this
    exact Finset.not_mem_empty x this
  · intro x hx
    cases Finset.not_mem_empty x hx

lemma Sound_inferred {M : Finset Cell} {s1 s2 : Sentence}
    (h1 : Sound M s1) (h2 : Sound M s2) (hsub : s1.cells ⊆ s2.cells) :
    Sound M (inferred s1 s2) := by
  rw [Sound_iff_inter] at h1 h2 ⊢
  show s2.count - s1.count = (((s2.cells \ s1.cells) ∩ M).card : Int)
  have heq : (s2.cells \ s1.cells) ∩ M =
      (s2.cells ∩ M) \ (s1.cells ∩ M) := by
    ext x
    simp only [Finset.mem_sdiff, Finset.mem_inter, not_and]
    constructor
    · rintro ⟨⟨hx, hn⟩, hM⟩
      exact ⟨⟨hx, hM⟩, fun hx1 _ => hn hx1⟩
    · rintro ⟨⟨hx, hM⟩, hn⟩
      exact ⟨⟨hx, fun hx1 => hn hx1 hM⟩, hM⟩
  have hsub' : s1.cells ∩ M ⊆ s2.cells ∩ M :=
    Finset.inter_subset_inter hsub (Finset.Subset.refl _)
  rw [heq, Finset.card_sdiff hsub',
    Nat.cast_sub (Finset.card_le_card hsub'), h1, h2]

lemma SoundAll_broadcastMines {M X : Finset Cell} {s : MinesweeperAI}
    (hXM : X ⊆ M) (h : SoundAll M s) : SoundAll M (broadcastMines s X) := by
  intro t' ht'
  obtain ⟨t, ht, rfl⟩ := List.mem_map.mp ht'
  exact Sound_resolve_mines hXM (h t ht)

lemma SoundAll_broadcastSafes {M X : Finset Cell} {s : MinesweeperAI}
    (hXM : ∀ x ∈ X, x ∉ M) (h : SoundAll M s) :
    SoundAll M (broadcastSafes s X) := by
  intro t' ht'
  obtain ⟨t, ht, rfl⟩ := List.mem_map.mp ht'
  exact Sound_resolve_safes hXM (h t ht)

lemma SoundAll_broadcastOne {M : Finset Cell} {s : MinesweeperAI} (i : Nat)
    (h : SoundAll M s) : SoundAll M (broadcastOne s i) := by
  cases hget : s.knowledge[i]? with
  | none =>
      rw [broadcastOne_eq_none hget]
      exact h
  | some t =>
      rw [broadcastOne_eq_some hget]
      have hts : Sound M t := h t (List.getElem?_mem hget)
      have h1 : SoundAll M (broadcastMines s t.known_mines) :=
        SoundAll_broadcastMines (known_mines_sub_M hts) h
      exact SoundAll_broadcastSafes
        (known_safes_disj_M (Sound_resolve_mines (known_mines_sub_M hts) hts))
        h1

lemma cellsBound_broadcastMines {U X : Finset Cell} {s : MinesweeperAI}
    (h : cellsBound U s) : cellsBound U (broadcastMines s X) := by
  intro t' ht'
  obtain ⟨t, ht, rfl⟩ := List.mem_map.mp ht'
  rw [resolve_mines_cells]
  exact Finset.Subset.trans (Finset.sdiff_subset) (h t ht)

lemma cellsBound_broadcastSafes {U X : Finset Cell} {s : MinesweeperAI}
    (h : cellsBound U s) : cellsBound U (broadcastSafes s X) := by
  intro t' ht'
  obtain ⟨t, ht, rfl⟩ := List.mem_map.mp ht'
  rw [resolve_safes_cells]
  exact Finset.Subset.trans (Finset.sdiff_subset) (h t ht)

lemma cellsBound_broadcastOne {U : Finset Cell} {s : MinesweeperAI} (i : Nat)
    (h : cellsBound U s) : cellsBound U (broadcastOne s i) := by
  cases hget : s.knowledge[i]? with
  | none =>
      rw [broadcastOne_eq_none hget]
      exact h
  | some t =>
      rw [broadcastOne_eq_some hget]
      exact cellsBound_broadcastSafes (cellsBound_broadcastMines h)

lemma pureAll_broadcastMines {X : Finset Cell} {s : MinesweeperAI}
    (h : pureAll s) : pureAll (broadcastMines s X) := by
  intro t' ht'
  obtain ⟨t, ht, rfl⟩ := List.mem_map.mp ht'
  intro c hc
  rw [resolve_mines_cells, Finset.mem_sdiff] at hc
  obtain ⟨h1, h2⟩ := h t ht c hc.1
  refine ⟨?_, h2⟩
  show c ∉ s.mines ∪ X
  rw [Finset.mem_union]
  rintro (h3 | h3)
  · exact h1 h3
  · exact hc.2 h3

lemma pureAll_broadcastSafes {X : Finset Cell} {s : MinesweeperAI}
    (h : pureAll s) : pureAll (broadcastSafes s X) := by
  intro t' ht'
  obtain ⟨t, ht, rfl⟩ := List.mem_map.mp ht'
  intro c hc
  rw [resolve_safes_cells, Finset.mem_sdiff] at hc
  obtain ⟨h1, h2⟩ := h t ht c hc.1
  refine ⟨h1, ?_⟩
  show c ∉ s.safes ∪ X
  rw [Finset.mem_union]
  rintro (h3 | h3)
  · exact h2 h3
  · exact hc.2 h3

lemma pureAll_broadcastOne {s : MinesweeperAI} (i : Nat) (h : pureAll s) :
    pureAll (broadcastOne s i) := by
  cases hget : s.knowledge[i]? with
  | none =>
      rw [broadcastOne_eq_none hget]
      exact h
  | some t =>
      rw [broadcastOne_eq_some hget]
      exact pureAll_broadcastSafes (pureAll_broadcastMines h)

lemma broadcastOne_conf_sub (s : MinesweeperAI) (i : Nat) :
    s.mines ⊆ (broadcastOne s i).mines ∧
      s.safes ⊆ (broadcastOne s i).safes := by
  cases hget : s.knowledge[i]? with
  | none =>
      rw [broadcastOne_eq_none hget]
      exact ⟨Finset.Subset.refl _, Finset.Subset.refl _⟩
  | some t =>
      rw [broadcastOne_eq_some hget]
      constructor
      · show s.mines ⊆ s.mines ∪ t.known_mines
        exact Finset.subset_union_left
      · show s.safes ⊆ s.safes ∪ _
        exact Finset.subset_union_left

lemma confCard_mono {U : Finset Cell} {s s' : MinesweeperAI}
    (hm : s.mines ⊆ s'.mines) (hs : s.safes ⊆ s'.safes) :
    confCard U s ≤ confCard U s' := by
  refine Finset.card_le_card ?_
  refine Finset.inter_subset_inter ?_ (Finset.Subset.refl _)
  exact Finset.union_subset_union hm hs

lemma broadcastOne_id_or_conf {U : Finset Cell} {s : MinesweeperAI} (i : Nat)
    (hpure : pureAll s) (hbound : cellsBound U s) :
    broadcastOne s i = s ∨
      confCard U s < confCard U (broadcastOne s i) := by
  cases hget : s.knowledge[i]? with
  | none =>
      left
      exact broadcastOne_eq_none hget
  | some t =>
      rw [broadcastOne_eq_some hget]
      have htmem : t ∈ s.knowledge := List.getElem?_mem hget
      by_cases hX : t.known_mines = ∅
      · rw [hX, broadcastMines_empty, resolve_mines_empty]
        by_cases hY : t.known_safes = ∅
        · left
          rw [hY, broadcastSafes_empty]
        · right
          obtain ⟨y, hy⟩ := Finset.nonempty_iff_ne_empty.mpr hY
          have hyc : y ∈ t.cells := known_safes_sub_cells t hy
          have hfresh := hpure t htmem y hyc
          have hyU : y ∈ U := hbound t htmem hyc
          show ((s.mines ∪ s.safes) ∩ U).card <
            ((s.mines ∪ (s.safes ∪ t.known_safes)) ∩ U).card
          refine Finset.card_lt_card ?_
          rw [Finset.ssubset_iff_of_subset (Finset.inter_subset_inter
            (Finset.union_subset_union (Finset.Subset.refl _)
              Finset.subset_union_left) (Finset.Subset.refl _))]
          refine ⟨y, ?_, ?_⟩
          · rw [Finset.mem_inter, Finset.mem_union, Finset.mem_union]
            exact ⟨Or.inr (Or.inr hy), hyU⟩
          · rw [Finset.mem_inter, Finset.mem_union]
            rintro ⟨h1 | h1, -⟩
            · exact hfresh.1 h1
            · exact hfresh.2 h1
      · right
        obtain ⟨x, hx⟩ := Finset.nonempty_iff_ne_empty.mpr hX
        have hxc : x ∈ t.cells := known_mines_sub_cells t hx
        have hfresh := hpure t htmem x hxc
        have hxU : x ∈ U := hbound t htmem hxc
        have h1 : confCard U s <
            confCard U (broadcastMines s t.known_mines) := by
          show ((s.mines ∪ s.safes) ∩ U).card <
            ((s.mines ∪ t.known_mines ∪ s.safes) ∩ U).card
          refine Finset.card_lt_card ?_
          rw [Finset.ssubset_iff_of_subset (Finset.inter_subset_inter
            (Finset.union_subset_union Finset.subset_union_left
              (Finset.Subset.refl _)) (Finset.Subset.refl _))]
          refine ⟨x, ?_, ?_⟩
          · rw [Finset.mem_inter, Finset.mem_union, Finset.mem_union]
            exact ⟨Or.inl (Or.inr hx), hxU⟩
          · rw [Finset.mem_inter, Finset.mem_union]
            rintro ⟨h1 | h1, -⟩
            · exact hfresh.1 h1
            · exact hfresh.2 h1
        refine lt_of_lt_of_le h1 (confCard_mono ?_ ?_)
        · exact Finset.Subset.refl _
        · exact Finset.subset_union_left

lemma foldl_broadcastOne_id_or_conf {U : Finset Cell} (l : List Nat) :
    ∀ s : MinesweeperAI, pureAll s → cellsBound U s →
      (l.foldl broadcastOne s = s ∨
        confCard U s < confCard U (l.foldl broadcastOne s)) := by
  induction l with
  | nil =>
      intro s _ _
      left
      rfl
  | cons i tl ih =>
      intro s hp hb
      simp only [List.foldl_cons]
      rcases broadcastOne_id_or_conf i hp hb with hid | hlt
      · rw [hid]
        exact ih s hp hb
      · right
        rcases ih (broadcastOne s i) (pureAll_broadcastOne i hp)
          (cellsBound_broadcastOne i hb) with hid | hlt2
        · rw [hid]
          exact hlt
        · exact lt_trans hlt hlt2

lemma SoundAll_foldl {M : Finset Cell} (l : List Nat) :
    ∀ s : MinesweeperAI, SoundAll M s →
      SoundAll M (l.foldl broadcastOne s) := by
  induction l with
  | nil => intro s h; exact h
  | cons i tl ih =>
      intro s h
      simp only [List.foldl_cons]
      exact ih (broadcastOne s i) (SoundAll_broadcastOne i h)

lemma cellsBound_foldl {U : Finset Cell} (l : List Nat) :
    ∀ s : MinesweeperAI, cellsBound U s →
      cellsBound U (l.foldl broadcastOne s) := by
  induction l with
  | nil => intro s h; exact h
  | cons i tl ih =>
      intro s h
      simp only [List.foldl_cons]
      exact ih (broadcastOne s i) (cellsBound_broadcastOne i h)

lemma SoundAll_closurePass {M : Finset Cell} {s : MinesweeperAI}
    (h : SoundAll M s) : SoundAll M (closurePass s).1 := by
  rw [closurePass_fst]
  have hbp : SoundAll M (broadcastPhase s) :=
    SoundAll_foldl (List.range s.knowledge.length) s h
  intro t ht
  rcases List.mem_append.mp ht with h1 | h1
  · exact hbp t h1
  · obtain ⟨-, s1, hs1, s2, hs2, hsub, rfl⟩ := inferNew_mem h1
    exact Sound_inferred (hbp s1 hs1) (hbp s2 hs2) hsub

lemma cellsBound_closurePass {U : Finset Cell} {s : MinesweeperAI}
    (h : cellsBound U s) : cellsBound U (closurePass s).1 := by
  rw [closurePass_fst]
  have hbp : cellsBound U (broadcastPhase s) :=
    cellsBound_foldl (List.range s.knowledge.length) s h
  intro t ht
  rcases List.mem_append.mp ht with h1 | h1
  · exact hbp t h1
  · obtain ⟨-, s1, hs1, s2, hs2, hsub, rfl⟩ := inferNew_mem h1
    show s2.cells \ s1.cells ⊆ U
    exact Finset.Subset.trans Finset.sdiff_subset (hbp s2 hs2)

lemma distinctCard_le {M U : Finset Cell} {s : MinesweeperAI}
    (hsound : SoundAll M s) (hbound : cellsBound U s) :
    distinctCard s ≤ 2 ^ U.card := by
  have h : distinctCard s ≤ U.powerset.card := by
    refine Finset.card_le_card_of_injOn (fun t => t.cells) ?_ ?_
    · intro t ht
      rw [List.mem_toFinset] at ht
      rw [Finset.mem_powerset]
      exact hbound t ht
    · intro t1 h1 t2 h2 heq
      have hm1 : t1 ∈ s.knowledge :=
        List.mem_toFinset.mp (Finset.mem_coe.mp h1)
      have hm2 : t2 ∈ s.knowledge :=
        List.mem_toFinset.mp (Finset.mem_coe.mp h2)
      have hs1 := hsound t1 hm1
      have hs2 := hsound t2 hm2
      unfold Sound at hs1 hs2
      obtain ⟨c1, n1⟩ := t1
      obtain ⟨c2, n2⟩ := t2
      simp only at heq hs1 hs2
      subst heq
      simp only [Sentence.mk.injEq]
      exact ⟨trivial, hs1.trans hs2.symm⟩
  rw [Finset.card_powerset] at h
  exact h

lemma confCard_le_card (U : Finset Cell) (s : MinesweeperAI) :
    confCard U s ≤ U.card :=
  Finset.card_le_card Finset.inter_subset_right

lemma closurePass_snd_true {s : MinesweeperAI}
    (h : (closurePass s).2 = true) :
    inferNew (broadcastPhase s).knowledge ≠ [] := by
  intro hns
  have heq : (closurePass s).2 =
      !(inferNew (broadcastPhase s).knowledge).isEmpty := rfl
  rw [heq, hns] at h
  simp at h

lemma measure_decr_A {u c0 c1 K D0 D1 : Nat} (h1 : c0 + 1 ≤ c1)
    (h2 : c1 ≤ u) (h3 : D1 ≤ K) :
    (u - c1) * (K + 1) + (K - D1) < (u - c0) * (K + 1) + (K - D0) := by
  calc (u - c1) * (K + 1) + (K - D1)
      < (u - c1) * (K + 1) + (K + 1) := by omega
    _ = (u - c1 + 1) * (K + 1) := by ring
    _ ≤ (u - c0) * (K + 1) := Nat.mul_le_mul_right _ (by omega)
    _ ≤ (u - c0) * (K + 1) + (K - D0) := Nat.le_add_right _ _

lemma closurePass_progress {U M : Finset Cell} {s : MinesweeperAI}
    (hpure : pureAll s) (hsound : SoundAll M s) (hbound : cellsBound U s)
    (hflag : (closurePass s).2 = true) :
    closureMeasure U (closurePass s).1 < closureMeasure U s := by
  have hns : inferNew (broadcastPhase s).knowledge ≠ [] :=
    closurePass_snd_true hflag
  have hconf_r : confCard U (closurePass s).1 =
      confCard U (broadcastPhase s) := by
    rw [closurePass_fst]
    rfl
  have hDle : distinctCard (closurePass s).1 ≤ 2 ^ U.card :=
    distinctCard_le (SoundAll_closurePass hsound)
      (cellsBound_closurePass hbound)
  have hD0le : distinctCard s ≤ 2 ^ U.card := distinctCard_le hsound hbound
  have hconfle : confCard U (closurePass s).1 ≤ U.card :=
    confCard_le_card U _
  rcases foldl_broadcastOne_id_or_conf (List.range s.knowledge.length) s
      hpure hbound with hid | hlt
  · have hbp : broadcastPhase s = s := hid
    have hgrow : distinctCard s < distinctCard (closurePass s).1 := by
      rw [closurePass_fst, hbp]
      show s.knowledge.toFinset.card <
        (s.knowledge ++ inferNew s.knowledge).toFinset.card
      rw [List.toFinset_append]
      refine Finset.card_lt_card ?_
      rw [Finset.ssubset_iff_of_subset Finset.subset_union_left]
      obtain ⟨x, hx⟩ := List.exists_mem_of_ne_nil _ (hbp ▸ hns)
      refine ⟨x, Finset.mem_union_right _ (List.mem_toFinset.mpr hx), ?_⟩
      intro hmem
      exact (inferNew_mem hx).1 (List.mem_toFinset.mp hmem)
    unfold closureMeasure
    rw [hconf_r, hbp]
    exact Nat.add_lt_add_left (by omega) _
  · have h1 : confCard U s < confCard U (closurePass s).1 := by
      rw [hconf_r]
      exact hlt
    unfold closureMeasure
    exact measure_decr_A h1 hconfle hDle

/-- From an all-pure state whose sentences are sound for a placement `M`
and confined to a finite universe `U`, enough fuel makes the closure loop
exit. -/
lemma runClosure_of_measure :
    ∀ (fuel : Nat) (s : MinesweeperAI) (U M : Finset Cell),
      pureAll s → SoundAll M s → cellsBound U s →
      closureMeasure U s < fuel →
      ∃ s', runClosure fuel s = some s' := by
  intro fuel
  induction fuel with
  | zero =>
      intro s U M _ _ _ h
      omega
  | succ n ih =>
      intro s U M hp hs hb hm
      rcases hcp : closurePass s with ⟨t, b⟩
      cases b with
      | false => exact ⟨t, runClosure_succ_false hcp n⟩
      | true =>
          have hflag : (closurePass s).2 = true := by rw [hcp]
          have hprog : closureMeasure U t < closureMeasure U s := by
            have := closurePass_progress hp hs hb hflag
            rw [hcp] at this
            exact this
          have hpt : pureAll t := by
            have := closurePass_pure (pureAll_Qinv hp)
            rw [hcp] at this
            exact this
          have hst : SoundAll M t := by
            have := @SoundAll_closurePass M s hs
            rw [hcp] at this
            exact this
          have hbt : cellsBound U t := by
            have := @cellsBound_closurePass U s hb
            rw [hcp] at this
            exact this
          obtain ⟨s', hs'⟩ := ih t U M hpt hst hbt (by omega)
          exact ⟨s', by rw [runClosure_succ_true hcp n, hs']⟩

/-- C2 (amended): the closure loop terminates from every state whose held
sentences are all sound for one mine placement `M`, live inside a finite
universe `U` of cells, and contain no already-confirmed cell; the
divergence of `C2_counterexample` needs counts no placement can produce. -/
theorem C2_amended (s : MinesweeperAI) (M U : Finset Cell)
    (hpure : ∀ t ∈ s.knowledge, ∀ c ∈ t.cells, c ∉ s.mines ∧ c ∉ s.safes)
    (hsound : ∀ t ∈ s.knowledge, Sound M t)
    (hbound : ∀ t ∈ s.knowledge, t.cells ⊆ U) :
    ∃ (fuel : Nat) (s' : MinesweeperAI), runClosure fuel s = some s' := by
  obtain ⟨s', h⟩ := runClosure_of_measure (closureMeasure U s + 1) s U M
    hpure hsound hbound (by omega)
  exact ⟨closureMeasure U s + 1, s', h⟩

theorem C2_amended_witness :
    (∀ t ∈ (⟨1, 1, ∅, ∅, ∅, [⟨{((0 : Int), (0 : Int))}, 1⟩]⟩ :
        MinesweeperAI).knowledge, ∀ c ∈ t.cells,
      c ∉ (⟨1, 1, ∅, ∅, ∅, [⟨{((0 : Int), (0 : Int))}, 1⟩]⟩ :
        MinesweeperAI).mines ∧
      c ∉ (⟨1, 1, ∅, ∅, ∅, [⟨{((0 : Int), (0 : Int))}, 1⟩]⟩ :
        MinesweeperAI).safes) ∧
    (∀ t ∈ (⟨1, 1, ∅, ∅, ∅, [⟨{((0 : Int), (0 : Int))}, 1⟩]⟩ :
        MinesweeperAI).knowledge, Sound {((0 : Int), (0 : Int))} t) ∧
    (∀ t ∈ (⟨1, 1, ∅, ∅, ∅, [⟨{((0 : Int), (0 : Int))}, 1⟩]⟩ :
        MinesweeperAI).knowledge,
      t.cells ⊆ {((0 : Int), (0 : Int))}) ∧
    ∃ (fuel : Nat) (s' : MinesweeperAI),
      runClosure fuel
        (⟨1, 1, ∅, ∅, ∅, [⟨{((0 : Int), (0 : Int))}, 1⟩]⟩ :
          MinesweeperAI) = some s' :=
  ⟨by decide, by decide, by decide,
    C2_amended _ {((0 : Int), (0 : Int))} {((0 : Int), (0 : Int))}
      (by decide) (by decide) (by decide)⟩
